import Mathlib

/-!
Verification of the Excel-To-Python formula compilation engine.

Shallow embedding of the repository's core algorithms:
* `vectorizer.py` — reference extraction, pattern normalisation, grouping,
  dependency ordering of groups/singles;
* `dependency_graph.py` — Kahn topological sort over formula cells;
* `formula_converter.py` — Excel-formula → Python-expression conversion;
* `code_generator.py` — scalar and vectorised code emission.

Python strings are modelled as `List Char` (positions are codepoint indices,
matching Python). Python regular-expression scans are compiled by hand into
deterministic matchers: every pattern used by the source has no observable
backtracking (each greedy sub-run is over a character class disjoint from
its successor), so a deterministic matcher is faithful. Python `set`s whose
iteration order is observable are modelled as insertion-ordered
duplicate-free lists; where the source iterates a CPython set of small ints
the model iterates in ascending order (CPython's behaviour for the concrete
inputs considered). Python exceptions are modelled by `Except`.
-/

set_option maxRecDepth 10000
set_option linter.unusedVariables false
set_option synthInstance.maxSize 1000

instance {ε α : Type} [DecidableEq ε] [DecidableEq α] :
    DecidableEq (Except ε α) := fun a b =>
  match a, b with
  | .ok x, .ok y =>
      if h : x = y then isTrue (by rw [h])
      else isFalse (by intro hh; cases hh; exact h rfl)
  | .error x, .error y =>
      if h : x = y then isTrue (by rw [h])
      else isFalse (by intro hh; cases hh; exact h rfl)
  | .ok _, .error _ => isFalse (by intro hh; cases hh)
  | .error _, .ok _ => isFalse (by intro hh; cases hh)

namespace ExcelToPython

abbrev Chars := List Char

/-- ASCII `A`-`Z`, the class `[A-Z]` used by the reference regexes. -/
def isUpperAZ (c : Char) : Bool := 'A' ≤ c && c ≤ 'Z'

def isLowerAZ (c : Char) : Bool := 'a' ≤ c && c ≤ 'z'

/-- The class `\d` (ASCII model). -/
def isDigit09 (c : Char) : Bool := '0' ≤ c && c ≤ '9'

/-- Python `str.isalpha` restricted to ASCII (the formulas considered are ASCII). -/
def isAlphaAscii (c : Char) : Bool := isUpperAZ c || isLowerAZ c

/-- The class `\w` (ASCII model). -/
def isWordChar (c : Char) : Bool := isAlphaAscii c || isDigit09 c || c = '_'

/-- Length of the maximal run of characters satisfying `p` at the head. -/
def runLength (p : Char → Bool) : Chars → Nat
  | [] => 0
  | c :: cs => if p c then runLength p cs + 1 else 0

def digitsVal : Chars → Nat → Nat
  | [], acc => acc
  | c :: cs, acc => digitsVal cs (acc * 10 + (c.toNat - '0'.toNat))

/-- Python `int` applied to a run of decimal digits. -/
def digitsToNat (l : Chars) : Nat := digitsVal l 0

def upperChar (c : Char) : Char :=
  if isLowerAZ c then Char.ofNat (c.toNat - 32) else c

def lowerChar (c : Char) : Char :=
  if isUpperAZ c then Char.ofNat (c.toNat + 32) else c

/-- `col_letter_to_index` from `src/formula_converter.py`:
fold `result * 26 + (ord(char) - ord('A') + 1)` over the uppercased letters. -/
def col_letter_to_index (col : Chars) : Nat :=
  col.foldl (fun r ch => r * 26 + ((upperChar ch).toNat - 'A'.toNat + 1)) 0

def indexToColAux : Nat → Nat → Chars → Chars
  | 0, _, acc => acc
  | _ + 1, 0, acc => acc
  | fuel + 1, index, acc =>
      indexToColAux fuel ((index - 1) / 26)
        (Char.ofNat (65 + (index - 1) % 26) :: acc)

/-- `index_to_col_letter` from `src/formula_converter.py` (fuelled: the source
loop strictly decreases `index`, so `index` itself bounds the iterations). -/
def index_to_col_letter (index : Nat) : Chars := indexToColAux index index []

/-! ### `_in_string` (vectorizer.py lines 90-101)

Scans the formula up to `pos`, toggling an in-string flag at each `"`;
a doubled `""` inside a string is skipped as an escaped literal quote. -/

def inStrGo : Chars → Nat → Bool → Bool → Bool
  | [], _, b, _ => b
  | c :: rest, k, b, skip =>
      if k = 0 then b
      else if skip then inStrGo rest (k - 1) b false
      else if c = '"' then
        if b ∧ rest.head? = some '"' then inStrGo rest (k - 1) b true
        else inStrGo rest (k - 1) (!b) false
      else inStrGo rest (k - 1) b false

/-- `_in_string(formula, pos)` from `vectorizer.py`. The source's
`i += 2; continue` escape step is expressed one character at a time with a
skip flag (`skip = true` exactly when the previous character opened an
escaped `""` pair inside a string), which keeps the recursion structural;
the position counter `k` decreases by one per character either way. -/
def in_string (formula : Chars) (pos : Nat) : Bool :=
  inStrGo formula pos false false

/-! ### Deterministic matchers for the reference regexes -/

/-- The groups of the cell sub-pattern `(\$?)([A-Z]{1,3})(\$?)(\d+)`.
`rowRaw` keeps the matched digit text, `row` its `int` value. -/
structure CellTok where
  colAbs : Bool
  col : Chars
  rowAbs : Bool
  rowRaw : Chars
  row : Nat
deriving DecidableEq, Repr

/-- Match `(\$?)([A-Z]{1,3})(\$?)(\d+)` at the head of `l`.
The letter run and the digit run are over disjoint classes, so the regex
match is deterministic: a letter run longer than 3 can never be completed
into a match at this position. -/
def cellPartAt (l : Chars) : Option (CellTok × Nat) :=
  let b1 := l.head? == some '$'
  let d1 := if b1 then 1 else 0
  let l1 := l.drop d1
  let nL := runLength isUpperAZ l1
  if 1 ≤ nL ∧ nL ≤ 3 then
    let l2 := l1.drop nL
    let b2 := l2.head? == some '$'
    let d2 := if b2 then 1 else 0
    let l3 := l2.drop d2
    let nD := runLength isDigit09 l3
    if 1 ≤ nD then
      some ({ colAbs := b1, col := l1.take nL, rowAbs := b2,
              rowRaw := l3.take nD, row := digitsToNat (l3.take nD) },
            d1 + nL + d2 + nD)
    else none
  else none

/-- Match `(?:'([^'\[\]]+)'|([A-Za-z_]\w*))!` at the head
(the internal cross-sheet qualifier). Returns the sheet-name group. -/
def intSheetAt (l : Chars) : Option (Chars × Nat) :=
  match l with
  | '\'' :: rest =>
      let n := runLength (fun c => !(c == '\'' || c == '[' || c == ']')) rest
      if 1 ≤ n ∧ (rest.drop n).head? = some '\'' ∧
          (rest.drop (n + 1)).head? = some '!' then
        some (rest.take n, n + 3)
      else none
  | c :: _ =>
      if isAlphaAscii c || c = '_' then
        let w := runLength isWordChar l
        if (l.drop w).head? = some '!' then some (l.take w, w + 1) else none
      else none
  | [] => none

/-- Match `'?\[([^\]]+)\]([^'!]+)'?!` at the head (the external-workbook
qualifier). Returns the (file, sheet) groups. -/
def extQualAt (l : Chars) : Option ((Chars × Chars) × Nat) :=
  let d1 := if l.head? == some '\'' then 1 else 0
  match l.drop d1 with
  | '[' :: rest =>
      let nf := runLength (fun c => !(c == ']')) rest
      if 1 ≤ nf ∧ (rest.drop nf).head? = some ']' then
        let rest2 := rest.drop (nf + 1)
        let ns := runLength (fun c => !(c == '\'' || c == '!')) rest2
        if 1 ≤ ns then
          let d2 := if (rest2.drop ns).head? == some '\'' then 1 else 0
          if (rest2.drop (ns + d2)).head? = some '!' then
            some ((rest.take nf, rest2.take ns),
                  d1 + 1 + nf + 1 + ns + d2 + 1)
          else none
        else none
      else none
  | _ => none

/-- Match `_EXT_RANGE_PATTERN` at the head. -/
def extRangeAt (l : Chars) :
    Option ((Chars × Chars × CellTok × CellTok) × Nat) :=
  match extQualAt l with
  | none => none
  | some ((file, sheet), n0) =>
    match cellPartAt (l.drop n0) with
    | none => none
    | some (cp1, n1) =>
      if (l.drop (n0 + n1)).head? = some ':' then
        match cellPartAt (l.drop (n0 + n1 + 1)) with
        | none => none
        | some (cp2, n2) => some ((file, sheet, cp1, cp2), n0 + n1 + 1 + n2)
      else none

/-- Match `_EXT_CELL_PATTERN` at the head. -/
def extCellAt (l : Chars) : Option ((Chars × Chars × CellTok) × Nat) :=
  match extQualAt l with
  | none => none
  | some ((file, sheet), n0) =>
    match cellPartAt (l.drop n0) with
    | none => none
    | some (cp, n1) => some ((file, sheet, cp), n0 + n1)

/-- Match `_INT_RANGE_PATTERN` at the head. -/
def intRangeAt (l : Chars) : Option ((Chars × CellTok × CellTok) × Nat) :=
  match intSheetAt l with
  | none => none
  | some (sheet, n0) =>
    match cellPartAt (l.drop n0) with
    | none => none
    | some (cp1, n1) =>
      if (l.drop (n0 + n1)).head? = some ':' then
        match cellPartAt (l.drop (n0 + n1 + 1)) with
        | none => none
        | some (cp2, n2) => some ((sheet, cp1, cp2), n0 + n1 + 1 + n2)
      else none

/-- Match `_INT_CELL_PATTERN` at the head. -/
def intCellAt (l : Chars) : Option ((Chars × CellTok) × Nat) :=
  match intSheetAt l with
  | none => none
  | some (sheet, n0) =>
    match cellPartAt (l.drop n0) with
    | none => none
    | some (cp, n1) => some ((sheet, cp), n0 + n1)

/-- Match `_LOCAL_RANGE_PATTERN` at the head. -/
def localRangeAt (l : Chars) : Option ((CellTok × CellTok) × Nat) :=
  match cellPartAt l with
  | none => none
  | some (cp1, n1) =>
    if (l.drop n1).head? = some ':' then
      match cellPartAt (l.drop (n1 + 1)) with
      | none => none
      | some (cp2, n2) => some ((cp1, cp2), n1 + 1 + n2)
    else none

/-- Match `_LOCAL_CELL_PATTERN` at the head. -/
def localCellAt (l : Chars) : Option (CellTok × Nat) := cellPartAt l

/-- `re.finditer`: scan left to right, yielding non-overlapping matches and
resuming after each match. Fuelled; `chars.length + 1` fuel is exact because
every matcher used consumes at least one character. Entries are
`(start, stop, groups)`. -/
def findAllF (m : Chars → Option (α × Nat)) :
    Nat → Chars → Nat → List (Nat × Nat × α)
  | 0, _, _ => []
  | _ + 1, [], _ => []
  | fuel + 1, c :: cs, pos =>
      match m (c :: cs) with
      | some (a, n) => (pos, pos + n, a) :: findAllF m fuel ((c :: cs).drop n) (pos + n)
      | none => findAllF m fuel cs (pos + 1)

def findAll (m : Chars → Option (α × Nat)) (l : Chars) : List (Nat × Nat × α) :=
  findAllF m (l.length + 1) l 0

/-! ### `Reference` and `extract_references` (vectorizer.py lines 67-207) -/

inductive RefKind | cell | range
deriving DecidableEq, Repr

/-- The `Reference` class of `vectorizer.py`. `stop` is the Python `end`
slot. `end_*` slots are `None` (here `none`) for plain cell references;
`col_idx`/`end_col_idx` are computed in `__init__` via
`col_letter_to_index`. -/
structure Reference where
  kind : RefKind
  external_file : Option Chars
  sheet : Chars
  col_abs : Bool
  col : Chars
  col_idx : Nat
  row_abs : Bool
  row : Nat
  end_col_abs : Option Bool
  end_col : Option Chars
  end_col_idx : Option Nat
  end_row_abs : Option Bool
  end_row : Option Nat
  start : Nat
  stop : Nat
  raw : Chars
deriving DecidableEq, Repr

/-- The `refs` list and `occupied` position set threaded through the six
matching passes of `extract_references`. -/
structure ExtractState where
  refs : List Reference
  occupied : List Nat
deriving Repr

/-- `_occupied(start, end)`: some position in `[start, stop)` already claimed. -/
def spanOverlaps (occupied : List Nat) (start stop : Nat) : Bool :=
  (List.range' start (stop - start)).any (fun p => occupied.contains p)

/-- `_claim(start, end)`. -/
def claimSpan (occupied : List Nat) (start stop : Nat) : List Nat :=
  occupied ++ List.range' start (stop - start)

def rawSlice (f : Chars) (start stop : Nat) : Chars :=
  (f.drop start).take (stop - start)

def mkRangeRef (ext : Option Chars) (sheet : Chars) (cp1 cp2 : CellTok)
    (start stop : Nat) (f : Chars) : Reference :=
  { kind := .range, external_file := ext, sheet := sheet,
    col_abs := cp1.colAbs, col := cp1.col, col_idx := col_letter_to_index cp1.col,
    row_abs := cp1.rowAbs, row := cp1.row,
    end_col_abs := some cp2.colAbs, end_col := some cp2.col,
    end_col_idx := some (col_letter_to_index cp2.col),
    end_row_abs := some cp2.rowAbs, end_row := some cp2.row,
    start := start, stop := stop, raw := rawSlice f start stop }

def mkCellRef (ext : Option Chars) (sheet : Chars) (cp : CellTok)
    (start stop : Nat) (f : Chars) : Reference :=
  { kind := .cell, external_file := ext, sheet := sheet,
    col_abs := cp.colAbs, col := cp.col, col_idx := col_letter_to_index cp.col,
    row_abs := cp.rowAbs, row := cp.row,
    end_col_abs := none, end_col := none, end_col_idx := none,
    end_row_abs := none, end_row := none,
    start := start, stop := stop, raw := rawSlice f start stop }

/-- The loop body of one matching pass of `extract_references`: skip a
match inside a string literal or overlapping claimed positions (and, when
`guarded`, a match preceded by a letter or `_` — the same-sheet rejection
of lines 180/196), otherwise append a `Reference` and claim the span. -/
def refStep (f : Chars) (guarded : Bool) (mk : α → Nat → Nat → Reference)
    (st : ExtractState) (m : Nat × Nat × α) : ExtractState :=
  let (start, stop, a) := m
  if in_string f start || spanOverlaps st.occupied start stop then st
  else if guarded && start > 0 &&
      (isAlphaAscii (f.getD (start - 1) ' ') || f.getD (start - 1) ' ' == '_') then st
  else
    { refs := st.refs ++ [mk a start stop],
      occupied := claimSpan st.occupied start stop }

/-- One pass of `extract_references`: fold `refStep` over the matches of
one pattern. `mk` builds the reference from the match groups. -/
def refPass (f : Chars) (ms : List (Nat × Nat × α)) (guarded : Bool)
    (mk : α → Nat → Nat → Reference) (st : ExtractState) : ExtractState :=
  ms.foldl (refStep f guarded mk) st

/-- The sort key `lambda r: r.start` of `extract_references`. -/
def refStartLe (a b : Reference) : Prop := a.start ≤ b.start

instance : DecidableRel refStartLe := fun a b => by
  unfold refStartLe; infer_instance

instance : IsTotal Reference refStartLe :=
  ⟨fun a b => Nat.le_total a.start b.start⟩

instance : IsTrans Reference refStartLe :=
  ⟨fun _ _ _ h1 h2 => Nat.le_trans h1 h2⟩

/-- The reference builders of the six passes. -/
def mkExtRange (f : Chars) (g : Chars × Chars × CellTok × CellTok)
    (s e : Nat) : Reference :=
  mkRangeRef (some g.1) g.2.1 g.2.2.1 g.2.2.2 s e f

def mkExtCell (f : Chars) (g : Chars × Chars × CellTok) (s e : Nat) :
    Reference :=
  mkCellRef (some g.1) g.2.1 g.2.2 s e f

def mkIntRange (f : Chars) (g : Chars × CellTok × CellTok) (s e : Nat) :
    Reference :=
  mkRangeRef none g.1 g.2.1 g.2.2 s e f

def mkIntCell (f : Chars) (g : Chars × CellTok) (s e : Nat) : Reference :=
  mkCellRef none g.1 g.2 s e f

def mkLocalRange (f cs : Chars) (g : CellTok × CellTok) (s e : Nat) :
    Reference :=
  mkRangeRef none cs g.1 g.2 s e f

def mkLocalCell (f cs : Chars) (g : CellTok) (s e : Nat) : Reference :=
  mkCellRef none cs g s e f

/-- The state after the six passes of `extract_references`, before the
final sort. -/
def extractPasses (f : Chars) (current_sheet : Chars) : ExtractState :=
  let st0 : ExtractState := ⟨[], []⟩
  let st1 := refPass f (findAll extRangeAt f) false (mkExtRange f) st0
  let st2 := refPass f (findAll extCellAt f) false (mkExtCell f) st1
  let st3 := refPass f (findAll intRangeAt f) false (mkIntRange f) st2
  let st4 := refPass f (findAll intCellAt f) false (mkIntCell f) st3
  let st5 := refPass f (findAll localRangeAt f) true
    (mkLocalRange f current_sheet) st4
  refPass f (findAll localCellAt f) true (mkLocalCell f current_sheet) st5

/-- `extract_references(formula, current_sheet)` from `vectorizer.py`:
strip a leading `=`, run the six pattern passes in priority order
(external range, external cell, internal cross-sheet range/cell,
same-sheet range/cell), then sort by start position. -/
def extract_references (formula : Chars) (current_sheet : Chars) :
    List Reference :=
  let f := if formula.head? = some '=' then formula.drop 1 else formula
  (extractPasses f current_sheet).refs.insertionSort refStartLe

/-! ### `compute_pattern` (vectorizer.py lines 214-251) -/

/-- Column descriptor of a pattern token: `("abs", letters)` or
`("rel", col_idx - cell_col_idx)`. -/
inductive ColDesc
  | abs (col : Chars)
  | rel (off : Int)
deriving DecidableEq, Repr

/-- Row descriptor of a pattern token: `("abs", row)` or
`("rel", row - cell_row)`. -/
inductive RowDesc
  | abs (row : Nat)
  | rel (off : Int)
deriving DecidableEq, Repr

/-- One tuple of the pattern-key token list. -/
inductive PatTok
  | cell (ext : Option Chars) (sheetPart : Option Chars)
      (c : ColDesc) (r : RowDesc)
  | range (ext : Option Chars) (sheetPart : Option Chars)
      (sc : ColDesc) (sr : RowDesc) (ec : ColDesc) (er : RowDesc)
deriving DecidableEq, Repr

/-- A pattern key `(skeleton, tuple(tokens))`. -/
abbrev PatternKey := Chars × List PatTok

/-- `sheet_part = ref.sheet if ref.sheet != current_sheet or ext else None`
(a non-`None` external file name is a nonempty string, hence truthy). -/
def sheetPartOf (current_sheet : Chars) (r : Reference) : Option Chars :=
  if r.sheet ≠ current_sheet ∨ r.external_file.isSome then some r.sheet else none

def colDescOf (cell_col_idx : Nat) (colAbs : Bool) (col : Chars) (colIdx : Nat) :
    ColDesc :=
  if colAbs then .abs col else .rel ((colIdx : Int) - (cell_col_idx : Int))

def rowDescOf (cell_row : Nat) (rowAbs : Bool) (row : Nat) : RowDesc :=
  if rowAbs then .abs row else .rel ((row : Int) - (cell_row : Int))

/-- The token built for one reference (the loop body of `compute_pattern`).
For ranges the `end_*` slots are always set by construction; `getD` merely
totalises the access. -/
def patTokOf (current_sheet : Chars) (cell_col_idx cell_row : Nat)
    (r : Reference) : PatTok :=
  match r.kind with
  | .cell =>
      .cell r.external_file (sheetPartOf current_sheet r)
        (colDescOf cell_col_idx r.col_abs r.col r.col_idx)
        (rowDescOf cell_row r.row_abs r.row)
  | .range =>
      .range r.external_file (sheetPartOf current_sheet r)
        (colDescOf cell_col_idx r.col_abs r.col r.col_idx)
        (rowDescOf cell_row r.row_abs r.row)
        (colDescOf cell_col_idx (r.end_col_abs.getD false) (r.end_col.getD [])
          (r.end_col_idx.getD 0))
        (rowDescOf cell_row (r.end_row_abs.getD false) (r.end_row.getD 0))

/-- `compute_pattern(formula, current_sheet, cell_col_idx, cell_row)`:
strip `=`, extract the references, build one descriptor token per
reference, and splice `@idx` placeholders over the reference spans in
descending start order (so earlier substitutions cannot shift later
offsets). Returns `(pattern_key, refs)`. -/
def compute_pattern (formula : Chars) (current_sheet : Chars)
    (cell_col_idx cell_row : Nat) : PatternKey × List Reference :=
  let raw := if formula.head? = some '=' then formula.drop 1 else formula
  let refs := extract_references formula current_sheet
  let tokens := refs.map (patTokOf current_sheet cell_col_idx cell_row)
  let skeleton := refs.enum.reverse.foldl
      (fun sk (p : Nat × Reference) =>
        sk.take p.2.start ++ ('@' :: (toString p.1).data) ++ sk.drop p.2.stop)
      raw
  ((skeleton, tokens), refs)

/-! ### `group_formulas` (vectorizer.py lines 258-364) -/

/-- An input tuple `(sheet, col, row, formula, cell_info)`. -/
abbrev FCell (α : Type) := Chars × Chars × Nat × Chars × α

inductive Direction | vertical | horizontal
deriving DecidableEq, Repr

/-- A group dict `{ 'cells': [...], 'direction': ... }`. -/
structure Group (α : Type) where
  cells : List (FCell α)
  direction : Direction
deriving DecidableEq

/-- The per-cell dict built in the first loop of `group_formulas`. -/
structure CellPat (α : Type) where
  sheet : Chars
  col : Chars
  row : Nat
  col_idx : Nat
  formula : Chars
  cell_info : α
  pattern_key : Option (Chars × PatternKey)
  refs : List Reference

def addrOf (cp : CellPat α) : Chars × Chars × Nat := (cp.sheet, cp.col, cp.row)

def cpTuple (cp : CellPat α) : FCell α :=
  (cp.sheet, cp.col, cp.row, cp.formula, cp.cell_info)

/-- The first loop body of `group_formulas`. `compute_pattern` is total in
this model, so the `except` branch (which would set `pattern_key = None`)
is unreachable; a 2-tuple is always truthy, so the
`(sheet, pkey) if pkey else None` guard always yields the key. -/
def mkCellPat (t : FCell α) : CellPat α :=
  let col_idx := col_letter_to_index t.2.1
  let pr := compute_pattern t.2.2.2.1 t.1 col_idx t.2.2.1
  { sheet := t.1, col := t.2.1, row := t.2.2.1, col_idx := col_idx,
    formula := t.2.2.2.1, cell_info := t.2.2.2.2,
    pattern_key := some (t.1, pr.1), refs := pr.2 }

/-- Append `v` to the bucket of `key`, keeping first-insertion key order
(Python `defaultdict` iteration order). -/
def bucketAdd [DecidableEq κ] (key : κ) (v : β) :
    List (κ × List β) → List (κ × List β)
  | [] => [(key, [v])]
  | (k, vs) :: rest =>
      if k = key then (k, vs ++ [v]) :: rest
      else (k, vs) :: bucketAdd key v rest

/-- `_find_contiguous_runs`: split a list into maximal runs of elements
whose consecutive pairs satisfy `adj` (the source grows `runs[-1]` or opens
a new run; breaking exactly between consecutive elements failing `adj` is
the same computation, expressed front-first). -/
def splitRuns (adj : α → α → Bool) : List α → List (List α)
  | [] => []
  | [c] => [[c]]
  | c :: c2 :: rest =>
      match splitRuns adj (c2 :: rest) with
      | [] => [[c]]
      | r :: rs => if adj c c2 then (c :: r) :: rs else [c] :: r :: rs

/-- The vertical stage of one bucket: bucket by column, sort each column
bucket by row, split into runs of consecutive rows, and turn each run of
length ≥ 2 into a vertical group, collecting its addresses into `used`. -/
def verticalStage (bucket : List (CellPat α)) :
    List (Group α) × List (Chars × Chars × Nat) :=
  let colBuckets := bucket.foldl (fun bs cp => bucketAdd cp.col cp bs) []
  colBuckets.foldl (fun acc kb =>
    let sorted := kb.2.insertionSort (fun a b => a.row ≤ b.row)
    let runs := splitRuns (fun a b => b.row - a.row == 1) sorted
    runs.foldl (fun acc run =>
      if 2 ≤ run.length then
        (acc.1 ++ [⟨run.map cpTuple, .vertical⟩], acc.2 ++ run.map addrOf)
      else acc) acc) ([], [])

/-- The horizontal stage over the cells not claimed vertically: bucket by
row, sort by column index, runs of consecutive column indices. -/
def horizontalStage (remaining : List (CellPat α)) :
    List (Group α) × List (Chars × Chars × Nat) :=
  let rowBuckets := remaining.foldl (fun bs cp => bucketAdd cp.row cp bs) []
  rowBuckets.foldl (fun acc kb =>
    let sorted := kb.2.insertionSort (fun a b => a.col_idx ≤ b.col_idx)
    let runs := splitRuns (fun a b => b.col_idx - a.col_idx == 1) sorted
    runs.foldl (fun acc run =>
      if 2 ≤ run.length then
        (acc.1 ++ [⟨run.map cpTuple, .horizontal⟩], acc.2 ++ run.map addrOf)
      else acc) acc) ([], [])

structure GroupAcc (α : Type) where
  groups : List (Group α)
  singles : List (FCell α)

/-- The body of the bucket loop of `group_formulas`. A bucket of fewer than
two cells contributes its (sole) cell as a single. -/
def processBucket (acc : GroupAcc α) (bucket : List (CellPat α)) : GroupAcc α :=
  if bucket.length < 2 then
    { acc with singles := acc.singles ++ bucket.map cpTuple }
  else
    let v := verticalStage bucket
    let remaining := bucket.filter (fun cp => !(v.2.contains (addrOf cp)))
    let h := horizontalStage remaining
    let used := v.2 ++ h.2
    let leftover := bucket.filter (fun cp => !(used.contains (addrOf cp)))
    { groups := acc.groups ++ v.1 ++ h.1,
      singles := acc.singles ++ leftover.map cpTuple }

/-- `group_formulas(formula_cells)` from `vectorizer.py`. -/
def group_formulas (formula_cells : List (FCell α)) :
    List (Group α) × List (FCell α) :=
  let cell_pats := formula_cells.map mkCellPat
  let buckets := cell_pats.foldl (fun bs cp =>
      match cp.pattern_key with
      | some k => bucketAdd k cp bs
      | none => bs) []
  let no_pattern := cell_pats.filter (fun cp => cp.pattern_key = none)
  let acc := buckets.foldl (fun acc kb => processBucket acc kb.2) ⟨[], []⟩
  (acc.groups, acc.singles ++ no_pattern.map cpTuple)

/-! ### `topological_sort` (offlineopus/excel_to_python/dependency_graph.py)

Cell keys are `(sheet, row, col)` tuples (`excel_parser.py` line 235).
The Python function iterates the `formula_cells` set; the model takes an
enumeration list of it (the theorems assume it duplicate-free). The
adjacency dict maps a cell to the set of cells it depends on. -/

abbrev CellKey := String × Nat × Nat

/-- The sort key `lambda x: (x[0], x[1], x[2])` used for cyclic leftovers:
lexicographic on (sheet, row, col). -/
def cellKeyLe (a b : CellKey) : Prop :=
  a.1 < b.1 ∨ (a.1 = b.1 ∧ (a.2.1 < b.2.1 ∨ (a.2.1 = b.2.1 ∧ a.2.2 ≤ b.2.2)))

instance : DecidableRel cellKeyLe := fun a b => by
  unfold cellKeyLe; infer_instance

instance : IsTotal CellKey cellKeyLe := by
  constructor
  intro a b
  unfold cellKeyLe
  rcases lt_trichotomy a.1 b.1 with h | h | h
  · exact Or.inl (Or.inl h)
  · rcases lt_trichotomy a.2.1 b.2.1 with h2 | h2 | h2
    · exact Or.inl (Or.inr ⟨h, Or.inl h2⟩)
    · rcases le_total a.2.2 b.2.2 with h3 | h3
      · exact Or.inl (Or.inr ⟨h, Or.inr ⟨h2, h3⟩⟩)
      · exact Or.inr (Or.inr ⟨h.symm, Or.inr ⟨h2.symm, h3⟩⟩)
    · exact Or.inr (Or.inr ⟨h.symm, Or.inl h2⟩)
  · exact Or.inr (Or.inl h)

instance : IsTrans CellKey cellKeyLe := by
  constructor
  intro a b c hab hbc
  unfold cellKeyLe at *
  rcases hab with h1 | ⟨e1, h1⟩
  · rcases hbc with h2 | ⟨e2, _⟩
    · exact Or.inl (h1.trans h2)
    · exact Or.inl (e2 ▸ h1)
  · rcases hbc with h2 | ⟨e2, h2⟩
    · exact Or.inl (e1 ▸ h2)
    · refine Or.inr ⟨e1.trans e2, ?_⟩
      rcases h1 with h1 | ⟨f1, h1⟩
      · rcases h2 with h2 | ⟨f2, _⟩
        · exact Or.inl (h1.trans h2)
        · exact Or.inl (f2 ▸ h1)
      · rcases h2 with h2 | ⟨f2, h2⟩
        · exact Or.inl (f1 ▸ h2)
        · exact Or.inr ⟨f1.trans f2, h1.trans h2⟩

/-- The mutable state of the Kahn loop of `topological_sort`. -/
structure KahnState where
  in_deg : CellKey → Int
  queue : List CellKey
  sorted_cells : List CellKey
  visited : Finset CellKey

/-- The inner `for dependent in formula_cells` loop: decrement the
in-degree of every cell that depends on `cell`, appending it to the queue
when the in-degree reaches `<= 0` and it is unvisited. -/
def decPass (cell : CellKey) (adj : CellKey → Finset CellKey)
    (visited : Finset CellKey) :
    List CellKey → (CellKey → Int) → List CellKey →
    ((CellKey → Int) × List CellKey)
  | [], deg, q => (deg, q)
  | dependent :: more, deg, q =>
      if cell ∈ adj dependent then
        let d := deg dependent - 1
        let deg2 := fun k => if k = dependent then d else deg k
        if d ≤ 0 ∧ dependent ∉ visited then
          decPass cell adj visited more deg2 (q ++ [dependent])
        else decPass cell adj visited more deg2 q
      else decPass cell adj visited more deg q

/-- The `while queue` loop (fuelled; `kahnFuel` bounds the total number of
iterations, see `kahnLoop_final_queue_nil`). -/
def kahnLoop (cells : List CellKey) (adj : CellKey → Finset CellKey) :
    Nat → KahnState → KahnState
  | 0, st => st
  | fuel + 1, st =>
      match st.queue with
      | [] => st
      | cell :: rest =>
          if cell ∈ st.visited then
            kahnLoop cells adj fuel { st with queue := rest }
          else
            let visited' := insert cell st.visited
            let dq := decPass cell adj visited' cells st.in_deg rest
            kahnLoop cells adj fuel
              { in_deg := dq.1, queue := dq.2,
                sorted_cells := st.sorted_cells ++ [cell],
                visited := visited' }

/-- Initial in-degrees: for each formula cell, the number of its
dependencies that are themselves formula cells (`defaultdict(int)`
elsewhere). -/
def initInDeg (cells : List CellKey) (adj : CellKey → Finset CellKey)
    (k : CellKey) : Int :=
  if k ∈ cells then (((adj k).filter (· ∈ cells)).card : Int) else 0

/-- Fuel bound: the queue receives at most `|cells|` initial seeds and at
most `|cells|` appends per visit, with at most `|cells|` visits. -/
def kahnFuel (cells : List CellKey) : Nat :=
  cells.length * cells.length + cells.length + 1

def kahnStart (cells : List CellKey) (adj : CellKey → Finset CellKey) :
    KahnState :=
  { in_deg := initInDeg cells adj,
    queue := cells.filter (fun c => initInDeg cells adj c == 0),
    sorted_cells := [], visited := ∅ }

def kahnFinal (cells : List CellKey) (adj : CellKey → Finset CellKey) :
    KahnState :=
  kahnLoop cells adj (kahnFuel cells) (kahnStart cells adj)

/-- `topological_sort(workbook_info, adjacency)` from
`dependency_graph.py`: the Kahn output followed by the never-dequeued
cells sorted by `(x[0], x[1], x[2])`. -/
def topological_sort (cells : List CellKey) (adj : CellKey → Finset CellKey) :
    List CellKey :=
  let stF := kahnFinal cells adj
  let remaining := cells.filter (fun c => c ∉ stF.visited)
  stF.sorted_cells ++ remaining.insertionSort cellKeyLe

/-- The guard of the `logger.warning` cycle diagnostic: some formula cells
were never dequeued. -/
def topological_sort_cycle_diag (cells : List CellKey)
    (adj : CellKey → Finset CellKey) : Bool :=
  !(cells.filter (fun c => c ∉ (kahnFinal cells adj).visited)).isEmpty

/-! ### `FormulaConverter` (src/formula_converter.py)

Python exceptions (the two uncaught `str.index` calls on unterminated
string literals) are modelled by `Except.error .pyError`; the fuel needed
by the mutual recursion is quadratic in the formula length and
`.error .fuelOut` is unreachable at the fuel supplied by `convert`. -/

inductive ConvErr | pyError | fuelOut
deriving DecidableEq, Repr

/-- The three `referenced_*` sets of a `FormulaConverter`, as
insertion-ordered duplicate-free lists. -/
structure ConvState where
  referenced_cells : List (Chars × Chars × Nat)
  referenced_ranges : List (Chars × Chars × Nat × Chars × Nat)
  referenced_tables : List (Chars × Chars)
deriving DecidableEq, Repr

def setAdd [DecidableEq β] (l : List β) (x : β) : List β :=
  if x ∈ l then l else l ++ [x]

/-- Table metadata consumed by the converter and the code generator. -/
structure TableInfo where
  sheet : Chars
  columns : List Chars
  col_start : Chars
  header_row : Nat
  data_start_row : Nat
  data_end_row : Nat
deriving DecidableEq, Repr

abbrev Tables := List (Chars × TableInfo)

def tablesFind (tables : Tables) (name : Chars) : Option TableInfo :=
  (tables.find? (fun p => p.1 == name)).map Prod.snd

/-- `re.sub(r'[^a-zA-Z0-9]', '_', s)`. -/
def safeName (s : Chars) : Chars :=
  s.map (fun c => if isAlphaAscii c || isDigit09 c then c else '_')

/-- `cell_to_var_name`; `row` is rendered as matched (f-string). -/
def cell_to_var_name (sheet col row : Chars) : Chars :=
  "s_".data ++ safeName sheet ++ "_".data ++ col ++ row

/-- `range_to_var_name`. -/
def range_to_var_name (sheet c1 r1 c2 r2 : Chars) : Chars :=
  "rng_".data ++ safeName sheet ++ "_".data ++ c1 ++ r1 ++ "_".data ++ c2 ++ r2

/-- `table_ref_to_var_name`. -/
def table_ref_to_var_name (tname cname : Chars) : Chars :=
  "tbl_".data ++ safeName tname ++ "_".data ++ safeName cname

/-- `EXCEL_FUNCTION_MAP` from `formula_converter.py`. -/
def EXCEL_FUNCTION_MAP : List (String × String) := [
  ("SUM", "xl_sum"), ("AVERAGE", "xl_average"), ("COUNT", "xl_count"),
  ("COUNTA", "xl_counta"), ("MIN", "xl_min"), ("MAX", "xl_max"),
  ("IF", "xl_if"), ("AND", "xl_and"), ("OR", "xl_or"), ("NOT", "xl_not"),
  ("ABS", "abs"), ("ROUND", "round"), ("ROUNDUP", "xl_roundup"),
  ("ROUNDDOWN", "xl_rounddown"), ("INT", "int"), ("MOD", "xl_mod"),
  ("POWER", "xl_power"), ("SQRT", "xl_sqrt"), ("LEN", "xl_len"),
  ("LEFT", "xl_left"), ("RIGHT", "xl_right"), ("MID", "xl_mid"),
  ("UPPER", "xl_upper"), ("LOWER", "xl_lower"), ("TRIM", "xl_trim"),
  ("CONCATENATE", "xl_concatenate"), ("TEXT", "xl_text"),
  ("VALUE", "xl_value"), ("VLOOKUP", "xl_vlookup"),
  ("HLOOKUP", "xl_hlookup"), ("INDEX", "xl_index"), ("MATCH", "xl_match"),
  ("IFERROR", "xl_iferror"), ("ISBLANK", "xl_isblank"),
  ("SUMIF", "xl_sumif"), ("SUMIFS", "xl_sumifs"),
  ("COUNTIF", "xl_countif"), ("COUNTIFS", "xl_countifs"),
  ("AVERAGEIF", "xl_averageif"), ("SUMPRODUCT", "xl_sumproduct"),
  ("OFFSET", "xl_offset"), ("INDIRECT", "xl_indirect"), ("ROW", "xl_row"),
  ("COLUMN", "xl_column"), ("ROWS", "xl_rows"), ("COLUMNS", "xl_columns"),
  ("TODAY", "xl_today"), ("NOW", "xl_now"), ("YEAR", "xl_year"),
  ("MONTH", "xl_month"), ("DAY", "xl_day"), ("DATE", "xl_date"),
  ("EOMONTH", "xl_eomonth"), ("EDATE", "xl_edate"),
  ("DATEDIF", "xl_datedif"), ("PI", "xl_pi"), ("TRUE", "True"),
  ("FALSE", "False")]

/-- `EXCEL_FUNCTION_MAP.get(name, f"xl_{name.lower()}")` (name already
uppercased by the caller). -/
def funcMapGet (name : Chars) : Chars :=
  match EXCEL_FUNCTION_MAP.find? (fun p => p.1.data == name) with
  | some p => p.2.data
  | none => "xl_".data ++ name.map lowerChar

def isSpaceChar (c : Char) : Bool :=
  c = ' ' || c = '\t' || c = '\n' || c = '\r' ||
  c = Char.ofNat 11 || c = Char.ofNat 12

def lstripChars (l : Chars) : Chars := l.dropWhile isSpaceChar

def stripChars (l : Chars) : Chars :=
  ((l.dropWhile isSpaceChar).reverse.dropWhile isSpaceChar).reverse

/-- Scan of `_find_matching_paren` after the opening parenthesis:
relative index of the closing parenthesis at depth 0. -/
def findParenAux : Chars → Nat → Nat → Bool → Option Nat
  | [], _, _, _ => none
  | c :: rest, i, depth, inStr =>
      if c = '"' && !inStr then findParenAux rest (i + 1) depth true
      else if c = '"' && inStr then findParenAux rest (i + 1) depth false
      else if !inStr && c = '(' then findParenAux rest (i + 1) (depth + 1) inStr
      else if !inStr && c = ')' then
        if depth = 1 then some i else findParenAux rest (i + 1) (depth - 1) inStr
      else findParenAux rest (i + 1) depth inStr

/-- `_find_matching_paren(expr, start)` on the suffix `r = expr[start:]`
(whose head is the opening parenthesis), returning a relative index; the
no-match fallback is `len(expr) - 1`, i.e. `r.length - 1` relatively. -/
def findParen (r : Chars) : Nat :=
  match findParenAux (r.drop 1) 1 1 false with
  | some j => j
  | none => r.length - 1

def splitArgsGo : Chars → Chars → Int → Bool → List Chars → List Chars
  | [], current, _, _, args =>
      if current ≠ [] then args ++ [stripChars current] else args
  | c :: rest, current, depth, inStr, args =>
      if c = '"' then splitArgsGo rest (current ++ [c]) depth (!inStr) args
      else if inStr then splitArgsGo rest (current ++ [c]) depth inStr args
      else if c = '(' then splitArgsGo rest (current ++ [c]) (depth + 1) inStr args
      else if c = ')' then splitArgsGo rest (current ++ [c]) (depth - 1) inStr args
      else if c = ',' ∧ depth = 0 then
        splitArgsGo rest [] depth inStr (args ++ [stripChars current])
      else splitArgsGo rest (current ++ [c]) depth inStr args

/-- `_split_function_args`. -/
def split_function_args (s : Chars) : List Chars :=
  (splitArgsGo s [] 0 false []).filter (fun a => a ≠ [])

/-- `^(\d+\.?\d*(?:[eE][+-]?\d+)?)`. -/
def numberAt (l : Chars) : Option (Chars × Nat) :=
  let d1 := runLength isDigit09 l
  if 1 ≤ d1 then
    let afterInt := l.drop d1
    let dotLen := if afterInt.head? == some '.' then 1 else 0
    let d2 := runLength isDigit09 (afterInt.drop dotLen)
    let mant := d1 + dotLen + d2
    let expLen :=
      match l.drop mant with
      | c :: rest =>
          if c = 'e' ∨ c = 'E' then
            let sgn := if rest.head? == some '+' || rest.head? == some '-'
                       then 1 else 0
            let de := runLength isDigit09 (rest.drop sgn)
            if 1 ≤ de then 1 + sgn + de else 0
          else 0
      | [] => 0
    some (l.take (mant + expLen), mant + expLen)
  else none

/-- `^'([^']+)'!`. -/
def quotedSheetAt (l : Chars) : Option (Chars × Nat) :=
  match l with
  | '\'' :: rest =>
      let n := runLength (fun c => !(c == '\'')) rest
      if 1 ≤ n ∧ (rest.drop n).head? = some '\'' ∧
          (rest.drop (n + 1)).head? = some '!' then
        some (rest.take n, n + 3)
      else none
  | _ => none

/-- `^(\w+)!`. -/
def wordBangAt (l : Chars) : Option (Chars × Nat) :=
  let w := runLength isWordChar l
  if 1 ≤ w ∧ (l.drop w).head? = some '!' then some (l.take w, w + 1)
  else none

/-- `^(\w+)\[([^\]]*)\]`. -/
def tableRefAt (l : Chars) : Option ((Chars × Chars) × Nat) :=
  let w := runLength isWordChar l
  if 1 ≤ w ∧ (l.drop w).head? = some '[' then
    let rest := l.drop (w + 1)
    let n := runLength (fun c => !(c == ']')) rest
    if (rest.drop n).head? = some ']' then
      some ((l.take w, rest.take n), w + 1 + n + 1)
    else none
  else none

def isFuncNameChar (c : Char) : Bool :=
  isAlphaAscii c || isDigit09 c || c = '_' || c = '.'

/-- `^([A-Z][A-Z0-9_.]*)\(` with `re.IGNORECASE`; the returned length is
`m.end()` (it includes the opening parenthesis). -/
def funcNameAt (l : Chars) : Option (Chars × Nat) :=
  match l with
  | c :: _ =>
      if isAlphaAscii c then
        let w := runLength isFuncNameChar l
        if (l.drop w).head? = some '(' then some (l.take w, w + 1) else none
      else none
  | [] => none

/-- `', '.join(args)`. -/
def joinComma : List Chars → Chars
  | [] => []
  | [a] => a
  | a :: rest => a ++ ", ".data ++ joinComma rest

/-- `len(expr) == k or not expr[k].isalpha()` (the boolean-literal
boundary test of `_parse_next_token`). -/
def boundaryOk (expr : Chars) (k : Nat) : Bool :=
  match expr.drop k with
  | [] => true
  | c :: _ => !isAlphaAscii c

/-- A cell-part of the converter regexes `\$?([A-Z]{1,3})\$?(\d+)`:
same shape as `cellPartAt`, only the column and row-text groups captured. -/
def convCellAt (l : Chars) : Option ((Chars × Chars × Nat) × Nat) :=
  match cellPartAt l with
  | some (cp, n) => some ((cp.col, cp.rowRaw, cp.row), n)
  | none => none

/-- Colon-joined pair of converter cell-parts. -/
def convRangeAt (l : Chars) :
    Option ((Chars × Chars × Nat × Chars × Chars × Nat) × Nat) :=
  match convCellAt l with
  | none => none
  | some ((c1, r1raw, r1), n1) =>
    if (l.drop n1).head? = some ':' then
      match convCellAt (l.drop (n1 + 1)) with
      | none => none
      | some ((c2, r2raw, r2), n2) =>
          some ((c1, r1raw, r1, c2, r2raw, r2), n1 + 1 + n2)
    else none

mutual

/-- `FormulaConverter._convert_expression`. -/
def convertExpression (tables : Tables) (cs : Chars) :
    Nat → Chars → ConvState → Except ConvErr (Chars × ConvState)
  | 0, _, _ => .error .fuelOut
  | fuel + 1, expr, st =>
      let e := stripChars expr
      if e = [] then .ok ("''".data, st)
      else convLoop tables cs fuel e st []

/-- The character loop of `_convert_expression` over the remaining text,
accumulating the output pieces. -/
def convLoop (tables : Tables) (cs : Chars) :
    Nat → Chars → ConvState → Chars → Except ConvErr (Chars × ConvState)
  | 0, _, _, _ => .error .fuelOut
  | _ + 1, [], st, acc => .ok (acc, st)
  | fuel + 1, c :: rest, st, acc =>
      if c = '"' then
        match rest.findIdx? (fun x => x == '"') with
        | none => .error .pyError
        | some j =>
            convLoop tables cs fuel (rest.drop (j + 1)) st
              (acc ++ (c :: rest).take (j + 2))
      else if c = '&' then
        let stripped := stripChars rest
        let leadtrail := rest.length - stripped.length
        match parseNextToken tables cs fuel stripped st with
        | .error e => .error e
        | .ok ((tok, consumed), st2) =>
            convLoop tables cs fuel (rest.drop (leadtrail + consumed)) st2
              (acc ++ " + str(".data ++ tok ++ ")".data)
      else if c = '<' ∧ rest.head? = some '>' then
        convLoop tables cs fuel (rest.drop 1) st (acc ++ " != ".data)
      else if c = '<' ∧ rest.head? = some '=' then
        convLoop tables cs fuel (rest.drop 1) st (acc ++ " <= ".data)
      else if c = '>' ∧ rest.head? = some '=' then
        convLoop tables cs fuel (rest.drop 1) st (acc ++ " >= ".data)
      else if c = '<' ∨ c = '>' then
        convLoop tables cs fuel rest st (acc ++ [' ', c, ' '])
      else if c = '=' then
        convLoop tables cs fuel rest st (acc ++ " == ".data)
      else if c = '^' then
        convLoop tables cs fuel rest st (acc ++ " ** ".data)
      else if c = '+' ∨ c = '-' ∨ c = '*' ∨ c = '/' then
        convLoop tables cs fuel rest st (acc ++ [' ', c, ' '])
      else if c = '(' then
        let j := findParen (c :: rest)
        let inner := rest.take (j - 1)
        match convertExpression tables cs fuel inner st with
        | .error e => .error e
        | .ok (conv, st2) =>
            convLoop tables cs fuel ((c :: rest).drop (j + 1)) st2
              (acc ++ "(".data ++ conv ++ ")".data)
      else if c = ',' then
        convLoop tables cs fuel rest st (acc ++ ", ".data)
      else if c = ' ' then
        convLoop tables cs fuel rest st acc
      else if c = '%' then
        convLoop tables cs fuel rest st (acc ++ " / 100".data)
      else
        match parseNextToken tables cs fuel (c :: rest) st with
        | .error e => .error e
        | .ok ((tok, consumed), st2) =>
            convLoop tables cs fuel ((c :: rest).drop consumed) st2 (acc ++ tok)

/-- `FormulaConverter._parse_next_token`: returns `(token, consumed)` where
`consumed` includes the leading-whitespace skip. -/
def parseNextToken (tables : Tables) (cs : Chars) :
    Nat → Chars → ConvState → Except ConvErr ((Chars × Nat) × ConvState)
  | 0, _, _ => .error .fuelOut
  | fuel + 1, expr0, st =>
      let expr := lstripChars expr0
      let skip := expr0.length - expr.length
      if expr = [] then .ok (([], skip), st)
      else
        match numberAt expr with
        | some (num, n) => .ok ((num, skip + n), st)
        | none =>
        if expr.head? = some '"' then
          match (expr.drop 1).findIdx? (fun x => x == '"') with
          | none => .error .pyError
          | some j => .ok ((expr.take (j + 2), skip + j + 2), st)
        else
        if (expr.take 4).map upperChar = "TRUE".data ∧ boundaryOk expr 4 then
          .ok (("True".data, skip + 4), st)
        else
        if (expr.take 5).map upperChar = "FALSE".data ∧ boundaryOk expr 5 then
          .ok (("False".data, skip + 5), st)
        else
        match quotedSheetAt expr with
        | some (sheet, n0) =>
            (match convRangeAt (expr.drop n0) with
             | some ((c1, r1raw, r1, c2, r2raw, r2), n1) =>
                 .ok ((range_to_var_name sheet c1 r1raw c2 r2raw, skip + n0 + n1),
                      { st with referenced_ranges :=
                          setAdd st.referenced_ranges (sheet, c1, r1, c2, r2) })
             | none =>
             match convCellAt (expr.drop n0) with
             | some ((col, rraw, row), n1) =>
                 .ok ((cell_to_var_name sheet col rraw, skip + n0 + n1),
                      { st with referenced_cells :=
                          setAdd st.referenced_cells (sheet, col, row) })
             | none => parseAfterSheet tables cs fuel expr skip st)
        | none => parseAfterSheet tables cs fuel expr skip st

/-- Continuation of `_parse_next_token` after the quoted-sheet regexes
failed (or matched no cell part): unquoted sheet, table, function call,
local range, local cell, single-character fallback. -/
def parseAfterSheet (tables : Tables) (cs : Chars) :
    Nat → Chars → Nat → ConvState → Except ConvErr ((Chars × Nat) × ConvState)
  | 0, _, _, _ => .error .fuelOut
  | fuel + 1, expr, skip, st =>
      match wordBangAt expr with
      | some (sheet, n0) =>
          (match convRangeAt (expr.drop n0) with
           | some ((c1, r1raw, r1, c2, r2raw, r2), n1) =>
               .ok ((range_to_var_name sheet c1 r1raw c2 r2raw, skip + n0 + n1),
                    { st with referenced_ranges :=
                        setAdd st.referenced_ranges (sheet, c1, r1, c2, r2) })
           | none =>
           match convCellAt (expr.drop n0) with
           | some ((col, rraw, row), n1) =>
               .ok ((cell_to_var_name sheet col rraw, skip + n0 + n1),
                    { st with referenced_cells :=
                        setAdd st.referenced_cells (sheet, col, row) })
           | none => parseAfterQual tables cs fuel expr skip st)
      | none => parseAfterQual tables cs fuel expr skip st

/-- Continuation after the sheet-qualified regexes: table reference (only
when the table is known, else fall through), function call, local range,
local cell, fallback. -/
def parseAfterQual (tables : Tables) (cs : Chars) :
    Nat → Chars → Nat → ConvState → Except ConvErr ((Chars × Nat) × ConvState)
  | 0, _, _, _ => .error .fuelOut
  | fuel + 1, expr, skip, st =>
      let tableStep :=
        match tableRefAt expr with
        | some ((tname, cname), n0) =>
            match tablesFind tables tname with
            | some _ => some ((table_ref_to_var_name tname cname, skip + n0),
                { st with referenced_tables :=
                    setAdd st.referenced_tables (tname, cname) })
            | none => none
        | none => none
      match tableStep with
      | some r => .ok r
      | none =>
      match funcNameAt expr with
      | some (fname, mEnd) =>
          let paren_start := mEnd - 1
          let j := findParen (expr.drop paren_start)
          let paren_end := paren_start + j
          let args_str := (expr.drop (paren_start + 1)).take (paren_end - paren_start - 1)
          let args := split_function_args args_str
          (match convArgs tables cs fuel args st with
           | .error e => .error e
           | .ok (cargs, st2) =>
               let upperName := fname.map upperChar
               let py_func := funcMapGet upperName
               if upperName = "TRUE".data then
                 .ok (("True".data, skip + paren_end + 1), st2)
               else if upperName = "FALSE".data then
                 .ok (("False".data, skip + paren_end + 1), st2)
               else if upperName = "PI".data then
                 .ok (("xl_pi()".data, skip + paren_end + 1), st2)
               else if upperName = "TODAY".data ∨ upperName = "NOW".data then
                 .ok ((py_func ++ "()".data, skip + paren_end + 1), st2)
               else
                 .ok ((py_func ++ "(".data ++ joinComma cargs ++ ")".data,
                       skip + paren_end + 1), st2))
      | none =>
      match convRangeAt expr with
      | some ((c1, r1raw, r1, c2, r2raw, r2), n1) =>
          .ok ((range_to_var_name cs c1 r1raw c2 r2raw, skip + n1),
               { st with referenced_ranges :=
                   setAdd st.referenced_ranges (cs, c1, r1, c2, r2) })
      | none =>
      match convCellAt expr with
      | some ((col, rraw, row), n1) =>
          .ok ((cell_to_var_name cs col rraw, skip + n1),
               { st with referenced_cells :=
                   setAdd st.referenced_cells (cs, col, row) })
      | none =>
          match expr with
          | c :: _ => .ok (([c], skip + 1), st)
          | [] => .ok (([], skip), st)

/-- `[self._convert_expression(a) for a in args]`, threading the
converter's reference sets. -/
def convArgs (tables : Tables) (cs : Chars) :
    Nat → List Chars → ConvState → Except ConvErr (List Chars × ConvState)
  | 0, _, _ => .error .fuelOut
  | _ + 1, [], st => .ok ([], st)
  | fuel + 1, a :: more, st =>
      match convertExpression tables cs fuel a st with
      | .error e => .error e
      | .ok (ca, st2) =>
          match convArgs tables cs fuel more st2 with
          | .error e => .error e
          | .ok (cas, st3) => .ok (ca :: cas, st3)

end

def convFuel (l : Chars) : Nat := 4 * (l.length + 2) * (l.length + 2)

/-- `FormulaConverter.convert(formula)`: strip the leading `=` and convert.
Returns the Python expression and the final reference sets. -/
def FormulaConverter.convert (tables : Tables) (current_sheet : Chars)
    (formula : Chars) : Except ConvErr (Chars × ConvState) :=
  let f := if formula.head? = some '=' then formula.drop 1 else formula
  convertExpression tables current_sheet (convFuel f) f ⟨[], [], []⟩

/-! ### `order_items` (vectorizer.py lines 371-445)

Items are groups or singles; produced/needed cells are keyed by
`(sheet, col_letters, row)`. A formula whose conversion raises (see
`ConvErr`) propagates the exception out of `order_items`, as in the
source. -/

abbrev ItemKey := Chars × Chars × Nat

inductive Item (α : Type)
  | group (g : Group α)
  | single (s : FCell α)
deriving DecidableEq

/-- `_cells_produced(item)` (a set in the source; the list has the same
elements and feeds only membership tests and the producer map). -/
def cells_produced (it : Item α) : List ItemKey :=
  match it with
  | .group g => g.cells.map (fun c => (c.1, c.2.1, c.2.2.1))
  | .single s => [(s.1, s.2.1, s.2.2.1)]

/-- The per-converter contribution to `_cells_needed`: the referenced
cells plus every cell of each referenced range. -/
def neededOfConv (st : ConvState) : Finset ItemKey :=
  st.referenced_cells.toFinset ∪
  (st.referenced_ranges.flatMap (fun r =>
      let ci1 := col_letter_to_index r.2.1
      let ci2 := col_letter_to_index r.2.2.2.1
      (List.range' r.2.2.1 (r.2.2.2.2 + 1 - r.2.2.1)).flatMap (fun rr =>
        (List.range' ci1 (ci2 + 1 - ci1)).map (fun cc =>
          (r.1, index_to_col_letter cc, rr))))).toFinset

def cellsNeededGo (tables : Tables) :
    List (FCell α) → Finset ItemKey → Except ConvErr (Finset ItemKey)
  | [], acc => .ok acc
  | c :: more, acc =>
      match FormulaConverter.convert tables c.1 c.2.2.2.1 with
      | .error e => .error e
      | .ok (_, st) => cellsNeededGo tables more (acc ∪ neededOfConv st)

/-- `_cells_needed(item, tables)`. -/
def cells_needed (tables : Tables) (it : Item α) :
    Except ConvErr (Finset ItemKey) :=
  cellsNeededGo tables
    (match it with | .group g => g.cells | .single s => [s]) ∅

def itemDeps (tables : Tables) :
    List (Item α) → Except ConvErr (List (Finset ItemKey))
  | [] => .ok []
  | it :: more =>
      match cells_needed tables it with
      | .error e => .error e
      | .ok nd =>
          match itemDeps tables more with
          | .error e => .error e
          | .ok nds => .ok (nd :: nds)

/-- The `producer` dict: for each produced cell the index of the last item
producing it. -/
def producerMap (items : List (Item α)) : ItemKey → Option Nat :=
  items.enum.foldl (fun pm p =>
      (cells_produced p.2).foldl
        (fun pm cell => fun k => if k = cell then some p.1 else pm k) pm)
    (fun _ => none)

/-- The `dep_indices` set of one item: producers of its needed-minus-own
cells, excluding itself. -/
def depIndicesOf (producer : ItemKey → Option Nat) (idx : Nat)
    (needed : Finset ItemKey) (own : List ItemKey) : Finset Nat :=
  (needed.filter (fun cell => cell ∉ own)).biUnion (fun cell =>
    match producer cell with
    | some pi => if pi ≠ idx then {pi} else ∅
    | none => ∅)

/-- The Kahn loop of `order_items` over item indices (fuelled; each index
is enqueued at most once, so `n + 1` fuel drains the queue). -/
def itemKahnLoop (fwd : Nat → List Nat) :
    Nat → (Nat → Int) → List Nat → List Nat → List Nat
  | 0, _, _, ordered => ordered
  | fuel + 1, deg, queue, ordered =>
      match queue with
      | [] => ordered
      | node :: rest =>
          let step := (fwd node).foldl
            (fun (p : (Nat → Int) × List Nat) nb =>
              let d := p.1 nb - 1
              (fun k => if k = nb then d else p.1 k,
               if d = 0 then p.2 ++ [nb] else p.2))
            (deg, rest)
          itemKahnLoop fwd fuel step.1 step.2 (ordered ++ [node])

/-- The index portion of `order_items`: adjacency `fwd`, in-degrees, Kahn,
and the cyclic leftovers `set(range(n)) - set(ordered)` appended in
ascending index order (CPython's iteration order for these small-int
sets). -/
def orderIndicesFrom (n : Nat) (depIdx : Nat → Finset Nat) : List Nat :=
  let fwd := fun pi => (List.range n).filter (fun idx => pi ∈ depIdx idx)
  let deg0 := fun idx => ((depIdx idx).card : Int)
  let queue0 := (List.range n).filter (fun i => deg0 i == 0)
  let ordered := itemKahnLoop fwd (n + 1) deg0 queue0 []
  ordered ++ (List.range n).filter (fun i => i ∉ ordered)

/-- The dependency-index function assembled by `order_items`. -/
def orderDepIdx (items : List (Item α)) (deps : List (Finset ItemKey)) :
    Nat → Finset Nat :=
  let producer := producerMap items
  fun idx =>
    match items.get? idx, deps.get? idx with
    | some it, some nd => depIndicesOf producer idx nd (cells_produced it)
    | _, _ => ∅

/-- `order_items(groups, singles, tables)`: the items permuted by the
computed index order (`[items[i] for i in ordered]`; every index is in
range, so the `filterMap` loses nothing). -/
def order_items (groups : List (Group α)) (singles : List (FCell α))
    (tables : Tables) : Except ConvErr (List (Item α)) :=
  let items := groups.map Item.group ++ singles.map Item.single
  if items.isEmpty then .ok []
  else
    match itemDeps tables items with
    | .error e => .error e
    | .ok deps =>
        .ok ((orderIndicesFrom items.length (orderDepIdx items deps)).filterMap
              items.get?)

/-! ### Code generation (excel_to_python_vectorized/code_generator.py) -/

/-- Python `repr` of a simple string without quotes or escapes (the sheet
and column names considered): single-quoted. -/
def pyRepr (s : Chars) : Chars := '\'' :: (s ++ ['\''])

def natStr (n : Nat) : Chars := (toString n).data

/-- Python `str.replace` (all occurrences, left to right). -/
def replaceAllF (patt repl : Chars) : Nat → Chars → Chars
  | 0, s => s
  | _ + 1, [] => []
  | fuel + 1, c :: rest =>
      if patt ≠ [] ∧ patt.isPrefixOf (c :: rest) then
        repl ++ replaceAllF patt repl fuel ((c :: rest).drop patt.length)
      else c :: replaceAllF patt repl fuel rest

def replaceAll (s patt repl : Chars) : Chars :=
  replaceAllF patt repl (s.length + 1) s

/-- `re.sub(escaped-literal, repl, s, count=1)`. -/
def replaceFirstF (patt repl : Chars) : Nat → Chars → Chars
  | 0, s => s
  | _ + 1, [] => []
  | fuel + 1, c :: rest =>
      if patt ≠ [] ∧ patt.isPrefixOf (c :: rest) then
        repl ++ (c :: rest).drop patt.length
      else c :: replaceFirstF patt repl fuel rest

def replaceFirst (s patt repl : Chars) : Chars :=
  replaceFirstF patt repl (s.length + 1) s

/-- `re.search(escaped-literal, s)`: substring containment. -/
def hasSubstrF (patt : Chars) : Nat → Chars → Bool
  | 0, _ => false
  | _ + 1, [] => patt = []
  | fuel + 1, c :: rest =>
      patt.isPrefixOf (c :: rest) || hasSubstrF patt fuel rest

def hasSubstr (s patt : Chars) : Bool := hasSubstrF patt (s.length + 1) s

def rangeVarOf (r : Chars × Chars × Nat × Chars × Nat) : Chars :=
  range_to_var_name r.1 r.2.1 (natStr r.2.2.1) r.2.2.2.1 (natStr r.2.2.2.2)

def cellVarOf (c : Chars × Chars × Nat) : Chars :=
  cell_to_var_name c.1 c.2.1 (natStr c.2.2)

/-- The table-column replacement string shared by `_expr_to_dict` and the
two `_vec_expr_*` functions. -/
def tableRepl (tables : Tables) (expr : Chars) (t : Chars × Chars) : Chars :=
  let var := table_ref_to_var_name t.1 t.2
  match tablesFind tables t.1 with
  | none => expr
  | some tbl =>
      if t.2 ∈ tbl.columns then
        let ci := tbl.columns.indexOf t.2
        let abs_col := index_to_col_letter (col_letter_to_index tbl.col_start + ci)
        let repl := "[c.get((".data ++ pyRepr tbl.sheet ++ ", ".data ++
          pyRepr abs_col ++ ", _tr)) for _tr in range(".data ++
          natStr tbl.data_start_row ++ ", ".data ++
          natStr (tbl.data_end_row + 1) ++ ")]".data
        replaceAll expr var repl
      else expr

/-- `_expr_to_dict(py_expr, converter, tables)`: replace range, table and
cell variable names (longest names first) by `_rng(…)` / list
comprehensions / `c.get(…)`. -/
def _expr_to_dict (py_expr : Chars) (st : ConvState) (tables : Tables) :
    Chars :=
  let e1 := (st.referenced_ranges.insertionSort
      (fun a b => (rangeVarOf b).length ≤ (rangeVarOf a).length)).foldl
    (fun expr r =>
      let repl := "_rng(c, ".data ++ pyRepr r.1 ++ ", ".data ++
        pyRepr r.2.1 ++ ", ".data ++ natStr r.2.2.1 ++ ", ".data ++
        pyRepr r.2.2.2.1 ++ ", ".data ++ natStr r.2.2.2.2 ++ ")".data
      replaceAll expr (rangeVarOf r) repl) py_expr
  let e2 := (st.referenced_tables.insertionSort
      (fun a b => (table_ref_to_var_name b.1 b.2).length ≤
                  (table_ref_to_var_name a.1 a.2).length)).foldl
    (fun expr t => tableRepl tables expr t) e1
  (st.referenced_cells.insertionSort
      (fun a b => (cellVarOf b).length ≤ (cellVarOf a).length)).foldl
    (fun expr c =>
      let repl := "c.get((".data ++ pyRepr c.1 ++ ", ".data ++
        pyRepr c.2.1 ++ ", ".data ++ natStr c.2.2 ++ "))".data
      replaceAll expr (cellVarOf c) repl) e2

def _row_expr (v : Chars) (offset : Int) : Chars :=
  if offset = 0 then v
  else if 0 < offset then v ++ " + ".data ++ (toString offset).data
  else v ++ " - ".data ++ (toString (-offset)).data

def _col_expr (v : Chars) (offset : Int) : Chars :=
  if offset = 0 then "_cl(".data ++ v ++ ")".data
  else if 0 < offset then
    "_cl(".data ++ v ++ " + ".data ++ (toString offset).data ++ ")".data
  else "_cl(".data ++ v ++ " - ".data ++ (toString (-offset)).data ++ ")".data

def _find_cell_ref (refs : List Reference) (sheet col : Chars) (row : Nat) :
    Option Reference :=
  refs.find? (fun r =>
    r.kind == RefKind.cell && r.sheet == sheet && r.col == col && r.row == row)

def _find_range_ref (refs : List Reference) (sheet c1 : Chars) (r1 : Nat)
    (c2 : Chars) (r2 : Nat) : Option Reference :=
  refs.find? (fun r =>
    r.kind == RefKind.range && r.sheet == sheet && r.col == c1 &&
    r.row == r1 && r.end_col == some c2 && r.end_row == some r2)

/-- `_vec_expr_vertical(py_expr, converter, refs_abs, tables,
base_col_idx, base_row, current_sheet)`. -/
def _vec_expr_vertical (py_expr : Chars) (st : ConvState)
    (refs_abs : List Reference) (tables : Tables)
    (base_col_idx base_row : Nat) : Chars :=
  let e1 := (st.referenced_ranges.insertionSort
      (fun a b => (rangeVarOf b).length ≤ (rangeVarOf a).length)).foldl
    (fun expr r =>
      let ri := _find_range_ref refs_abs r.1 r.2.1 r.2.2.1 r.2.2.2.1 r.2.2.2.2
      let r1e := if (ri.map (fun x => x.row_abs)).getD false then
          natStr r.2.2.1
        else _row_expr "_r".data ((r.2.2.1 : Int) - (base_row : Int))
      let r2e := if (ri.map (fun x => x.end_row_abs.getD false)).getD false then
          natStr r.2.2.2.2
        else _row_expr "_r".data ((r.2.2.2.2 : Int) - (base_row : Int))
      let repl := "_rng(c, ".data ++ pyRepr r.1 ++ ", ".data ++
        pyRepr r.2.1 ++ ", ".data ++ r1e ++ ", ".data ++
        pyRepr r.2.2.2.1 ++ ", ".data ++ r2e ++ ")".data
      replaceAll expr (rangeVarOf r) repl) py_expr
  let e2 := (st.referenced_tables.insertionSort
      (fun a b => (table_ref_to_var_name b.1 b.2).length ≤
                  (table_ref_to_var_name a.1 a.2).length)).foldl
    (fun expr t => tableRepl tables expr t) e1
  (st.referenced_cells.insertionSort
      (fun a b => (cellVarOf b).length ≤ (cellVarOf a).length)).foldl
    (fun expr c =>
      let ri := _find_cell_ref refs_abs c.1 c.2.1 c.2.2
      let row_e := if (ri.map (fun x => x.row_abs)).getD false then
          natStr c.2.2
        else _row_expr "_r".data ((c.2.2 : Int) - (base_row : Int))
      let repl := "c.get((".data ++ pyRepr c.1 ++ ", ".data ++
        pyRepr c.2.1 ++ ", ".data ++ row_e ++ "))".data
      replaceAll expr (cellVarOf c) repl) e2

/-- `_vec_expr_horizontal`. -/
def _vec_expr_horizontal (py_expr : Chars) (st : ConvState)
    (refs_abs : List Reference) (tables : Tables)
    (base_col_idx base_row : Nat) : Chars :=
  let e1 := (st.referenced_ranges.insertionSort
      (fun a b => (rangeVarOf b).length ≤ (rangeVarOf a).length)).foldl
    (fun expr r =>
      let ri := _find_range_ref refs_abs r.1 r.2.1 r.2.2.1 r.2.2.2.1 r.2.2.2.2
      let c1e := if (ri.map (fun x => x.col_abs)).getD false then
          pyRepr r.2.1
        else _col_expr "_ci".data
          ((col_letter_to_index r.2.1 : Int) - (base_col_idx : Int))
      let c2e := if (ri.map (fun x => x.end_col_abs.getD false)).getD false then
          pyRepr r.2.2.2.1
        else _col_expr "_ci".data
          ((col_letter_to_index r.2.2.2.1 : Int) - (base_col_idx : Int))
      let repl := "_rng(c, ".data ++ pyRepr r.1 ++ ", ".data ++ c1e ++
        ", ".data ++ natStr r.2.2.1 ++ ", ".data ++ c2e ++ ", ".data ++
        natStr r.2.2.2.2 ++ ")".data
      replaceAll expr (rangeVarOf r) repl) py_expr
  let e2 := (st.referenced_tables.insertionSort
      (fun a b => (table_ref_to_var_name b.1 b.2).length ≤
                  (table_ref_to_var_name a.1 a.2).length)).foldl
    (fun expr t => tableRepl tables expr t) e1
  (st.referenced_cells.insertionSort
      (fun a b => (cellVarOf b).length ≤ (cellVarOf a).length)).foldl
    (fun expr c =>
      let ri := _find_cell_ref refs_abs c.1 c.2.1 c.2.2
      let col_e := if (ri.map (fun x => x.col_abs)).getD false then
          pyRepr c.2.1
        else _col_expr "_ci".data
          ((col_letter_to_index c.2.1 : Int) - (base_col_idx : Int))
      let repl := "c.get((".data ++ pyRepr c.1 ++ ", ".data ++ col_e ++
        ", ".data ++ natStr c.2.2 ++ "))".data
      replaceAll expr (cellVarOf c) repl) e2

/-- Match `\[([^\]]+\.xlsx?)\]` (IGNORECASE) at the head: bracketed text
ending in `.xls`/`.xlsx`. -/
def extTagAt (l : Chars) : Option Nat :=
  match l with
  | '[' :: rest =>
      let n := runLength (fun c => !(c == ']')) rest
      if 1 ≤ n ∧ (rest.drop n).head? = some ']' then
        let lc := (rest.take n).map lowerChar
        if (".xlsx".data.isSuffixOf lc ∧ 6 ≤ n) ∨
            (".xls".data.isSuffixOf lc ∧ 5 ≤ n) then some (n + 2)
        else none
      else none
  | _ => none

/-- The final `re.sub(r"\[([^\]]+\.xlsx?)\]", "", expr)` safety strip. -/
def stripExtTagsF : Nat → Chars → Chars
  | 0, s => s
  | _ + 1, [] => []
  | fuel + 1, c :: rest =>
      match extTagAt (c :: rest) with
      | some n => stripExtTagsF fuel ((c :: rest).drop n)
      | none => c :: stripExtTagsF fuel rest

/-- `_patch_external_refs(expr, formula, current_sheet)`. -/
def _patch_external_refs (expr : Chars) (formula : Chars) (cs : Chars) :
    Chars :=
  let refs := extract_references formula cs
  let e1 := refs.foldl (fun expr ref =>
    match ref.external_file with
    | none => expr
    | some file =>
        let ext_key := file ++ "|".data ++ ref.sheet
        let bracket := "[".data ++ file ++ "]".data
        match ref.kind with
        | .cell =>
            let old_dict := "c.get((".data ++ pyRepr ref.sheet ++ ", ".data ++
              pyRepr ref.col ++ ", ".data ++ natStr ref.row ++ "))".data
            let new_dict := "c.get((".data ++ pyRepr ext_key ++ ", ".data ++
              pyRepr ref.col ++ ", ".data ++ natStr ref.row ++ "))".data
            let pat := bracket ++ old_dict
            if hasSubstr expr pat then replaceFirst expr pat new_dict
            else
              let var := cell_to_var_name ref.sheet ref.col (natStr ref.row)
              replaceFirst expr (bracket ++ var) new_dict
        | .range =>
            let old_rng := "_rng(c, ".data ++ pyRepr ref.sheet ++ ", ".data ++
              pyRepr ref.col ++ ", ".data ++ natStr ref.row ++ ", ".data ++
              pyRepr (ref.end_col.getD []) ++ ", ".data ++
              natStr (ref.end_row.getD 0) ++ ")".data
            let new_rng := "_rng(c, ".data ++ pyRepr ext_key ++ ", ".data ++
              pyRepr ref.col ++ ", ".data ++ natStr ref.row ++ ", ".data ++
              pyRepr (ref.end_col.getD []) ++ ", ".data ++
              natStr (ref.end_row.getD 0) ++ ")".data
            let pat := bracket ++ old_rng
            if hasSubstr expr pat then replaceFirst expr pat new_rng
            else
              let var := range_to_var_name ref.sheet ref.col (natStr ref.row)
                (ref.end_col.getD []) (natStr (ref.end_row.getD 0))
              replaceFirst expr (bracket ++ var) new_rng) expr
  stripExtTagsF (e1.length + 1) e1

/-- `_emit_single(item, tables)`: the guarded scalar assignment lines. The
generation-time `converter.convert` call is not guarded in the source, so
a conversion exception propagates. -/
def _emit_single (tables : Tables) (it : FCell α) :
    Except ConvErr (List Chars) :=
  match FormulaConverter.convert tables it.1 it.2.2.2.1 with
  | .error e => .error e
  | .ok (py, st) =>
      let dict_expr := _patch_external_refs (_expr_to_dict py st tables)
        it.2.2.2.1 it.1
      let target := "c[(".data ++ pyRepr it.1 ++ ", ".data ++
        pyRepr it.2.1 ++ ", ".data ++ natStr it.2.2.1 ++ ")]".data
      .ok ["    try:".data,
           "        ".data ++ target ++ " = ".data ++ dict_expr,
           "    except Exception:".data,
           "        ".data ++ target ++ " = None".data]

/-- `_compact_range_repr(nums)`. -/
def compactRangeRepr (nums : List Nat) : Chars :=
  if 2 ≤ nums.length ∧
      nums = List.range' (nums.headD 0) (nums.getLastD 0 + 1 - nums.headD 0) then
    "range(".data ++ natStr (nums.headD 0) ++ ", ".data ++
      natStr (nums.getLastD 0 + 1) ++ ")".data
  else "[".data ++ joinComma (nums.map natStr) ++ "]".data

/-- `_emit_group(group, tables)`: one loop per group, its expression
derived once from the first cell's formula. An empty group is unreachable
(runs have length ≥ 2; the source would raise `IndexError`). -/
def _emit_group (tables : Tables) (g : Group α) :
    Except ConvErr (List Chars) :=
  match g.cells with
  | [] => .error .pyError
  | c0 :: _ =>
      let sheet := c0.1
      let col0 := c0.2.1
      let row0 := c0.2.2.1
      let formula0 := c0.2.2.2.1
      let col0_idx := col_letter_to_index col0
      match FormulaConverter.convert tables sheet formula0 with
      | .error e => .error e
      | .ok (py, st) =>
          let refs_abs := extract_references formula0 sheet
          match g.direction with
          | .vertical =>
              let rows := g.cells.map (fun c => c.2.2.1)
              let row_list := compactRangeRepr rows
              let vec := _patch_external_refs
                (_vec_expr_vertical py st refs_abs tables col0_idx row0)
                formula0 sheet
              let target := "c[(".data ++ pyRepr sheet ++ ", ".data ++
                pyRepr col0 ++ ", _r)]".data
              .ok [("    # Vectorised: ".data ++ sheet ++ "!".data ++ col0 ++
                      natStr (rows.headD 0) ++ ":".data ++ col0 ++
                      natStr (rows.getLastD 0)),
                   "    for _r in ".data ++ row_list ++ ":".data,
                   "        try:".data,
                   "            ".data ++ target ++ " = ".data ++ vec,
                   "        except Exception:".data,
                   "            ".data ++ target ++ " = None".data]
          | .horizontal =>
              let cols := g.cells.map (fun c => c.2.1)
              let col_indices := cols.map col_letter_to_index
              let ci_list := compactRangeRepr col_indices
              let vec := _patch_external_refs
                (_vec_expr_horizontal py st refs_abs tables col0_idx row0)
                formula0 sheet
              let target := "c[(".data ++ pyRepr sheet ++
                ", _cl(_ci), ".data ++ natStr row0 ++ ")]".data
              .ok [("    # Vectorised: ".data ++ sheet ++ "!".data ++
                      cols.headD [] ++ natStr row0 ++ ":".data ++
                      cols.getLastD [] ++ natStr row0),
                   "    for _ci in ".data ++ ci_list ++ ":".data,
                   "        try:".data,
                   "            ".data ++ target ++ " = ".data ++ vec,
                   "        except Exception:".data,
                   "            ".data ++ target ++ " = None".data]

/-! ## Claims -/

/-- **C5.** The claim states that no single malformed formula aborts a
conversion run: translating any single formula string — e.g. one with an
unterminated double-quoted string literal — degrades non-fatally. The code
violates this: `_convert_expression` calls `expr.index('"', i + 1)`, which
raises an uncaught `ValueError` (modelled `.error .pyError`) on the
formula `="abc`, and `_emit_single` invokes `converter.convert` at code
generation time without any guard, so the exception propagates through
`_compute_section`/`generate_vectorized_script` and aborts the whole
batch: emission of the remaining cells never happens. -/
theorem C5_unterminated_string_aborts_conversion :
    FormulaConverter.convert [] "S".data "=\"abc".data = .error .pyError ∧
    _emit_single ([] : Tables)
      (("S".data, "A".data, 1, "=\"abc".data, ())) = .error .pyError ∧
    parseNextToken [] "S".data 64 "\"abc".data ⟨[], [], []⟩ =
      .error .pyError := by decide

/-- **C6.** The claim states that the single loop emitted for a group
substitutes the induction variable only for the relative offsets of the
group's pattern, keeps absolute parts literal, and reproduces each
member's own translation. The code violates this: `_vec_expr_vertical`
keys its substitution by `(sheet, col, row)` only, so in the group
`S!A2 = A1+$A$1`, `S!A3 = A2+$A$1` (which `group_formulas` does collapse
into one vertical group — first conjunct) the absolute reference `$A$1`
shares the variable `s_S_A1` with the relative `A1` and both occurrences
are replaced by `c.get(('S', 'A', _r - 1))` (second conjunct). The
member at row 3 translated individually reads rows 2 **and 1** (third
conjunct), while the loop body at `_r = 3` reads row 2 twice. -/
theorem C6_vectorised_loop_rewrites_absolute_reference :
    group_formulas [("S".data, "A".data, 2, "=A1+$A$1".data, ()),
                    ("S".data, "A".data, 3, "=A2+$A$1".data, ())] =
      ([(⟨[("S".data, "A".data, 2, "=A1+$A$1".data, ()),
           ("S".data, "A".data, 3, "=A2+$A$1".data, ())],
          Direction.vertical⟩ : Group Unit)], []) ∧
    _emit_group ([] : Tables)
      (⟨[("S".data, "A".data, 2, "=A1+$A$1".data, ()),
         ("S".data, "A".data, 3, "=A2+$A$1".data, ())],
        Direction.vertical⟩ : Group Unit) =
      .ok ["    # Vectorised: S!A2:A3".data,
           "    for _r in range(2, 4):".data,
           "        try:".data,
           ("            c[('S', 'A', _r)] = " ++
            "c.get(('S', 'A', _r - 1)) + c.get(('S', 'A', _r - 1))").data,
           "        except Exception:".data,
           "            c[('S', 'A', _r)] = None".data] ∧
    _emit_single ([] : Tables)
      (("S".data, "A".data, 3, "=A2+$A$1".data, ())) =
      .ok ["    try:".data,
           ("        c[('S', 'A', 3)] = " ++
            "c.get(('S', 'A', 2)) + c.get(('S', 'A', 1))").data,
           "    except Exception:".data,
           "        c[('S', 'A', 3)] = None".data] := by decide

/-- **C8 (counterexample).** The claim states that a candidate cell-like
match immediately preceded by an identifier character — *letter, digit, or
underscore* — yields no Reference. The source checks only
`formula[start-1].isalpha() or formula[start-1] == '_'`: in the formula
`1A1` the candidate `A1` at offset 1 is preceded by the digit `1`, which
is an identifier character, yet a Reference is returned for it. -/
theorem C8_counterexample_digit_preceded_match_accepted :
    (extract_references "1A1".data "S".data).map
      (fun r => (r.sheet, r.col, r.row, r.start, r.stop)) =
      [("S".data, "A".data, 1, 1, 3)] ∧
    isDigit09 ("1A1".data.getD 0 ' ') = true ∧
    isWordChar ("1A1".data.getD 0 ' ') = true := by decide

/-- **C8 (amended).** What the same-sheet passes of `extract_references`
actually reject is a candidate preceded by an ASCII letter or an
underscore (digits are not checked): every reference newly appended by a
guarded pass (`guarded = true`, as in the two same-sheet passes) either
starts at offset 0 or is preceded by a character that is neither a letter
nor `_`. -/
theorem C8_amended_same_sheet_guard_letter_or_underscore
    {α : Type} (f : Chars) (ms : List (Nat × Nat × α))
    (mk : α → Nat → Nat → Reference)
    (hmk : ∀ a s e, (mk a s e).start = s) (st : ExtractState)
    (r : Reference) (hr : r ∈ (refPass f ms true mk st).refs)
    (hnew : r ∉ st.refs) (hpos : 1 ≤ r.start) :
    isAlphaAscii (f.getD (r.start - 1) ' ') = false ∧
    f.getD (r.start - 1) ' ' ≠ '_' := by
  induction ms generalizing st with
  | nil => exact absurd hr hnew
  | cons m ms ih =>
      rw [refPass, List.foldl_cons] at hr
      by_cases hmem : r ∈ (refStep f true mk st m).refs
      · obtain ⟨start, stop, a⟩ := m
        unfold refStep at hmem
        dsimp only at hmem
        by_cases h1 : in_string f start || spanOverlaps st.occupied start stop
        · rw [if_pos h1] at hmem; exact absurd hmem hnew
        · rw [if_neg h1] at hmem
          by_cases h2 : (true && decide (start > 0) &&
              (isAlphaAscii (f.getD (start - 1) ' ') ||
               f.getD (start - 1) ' ' == '_')) = true
          · rw [if_pos h2] at hmem; exact absurd hmem hnew
          · rw [if_neg h2] at hmem
            dsimp only at hmem
            rcases List.mem_append.mp hmem with hold | hnewr
            · exact absurd hold hnew
            · have hre : r = mk a start stop := List.mem_singleton.mp hnewr
              have hstart : r.start = start := by rw [hre]; exact hmk a start stop
              simp only [Bool.true_and, Bool.and_eq_true, Bool.or_eq_true,
                decide_eq_true_eq, not_and, not_or] at h2
              have hpos' : start > 0 := by omega
              have h3 := h2 hpos'
              constructor
              · rw [hstart]
                cases hA : isAlphaAscii (f.getD (start - 1) ' ')
                · rfl
                · exact absurd hA h3.1
              · rw [hstart]
                intro hU
                exact h3.2 (by rw [hU]; rfl)
      · exact ih (refStep f true mk st m) hr hmem

/-- **C8 (amended, witness).** Instantiates the amended guard theorem on
the same-sheet cell pass over the formula `1A1`, whose accepted reference
starts at offset 1 after the digit `1`. -/
theorem C8_amended_witness :
    isAlphaAscii ("1A1".data.getD 0 ' ') = false ∧
    "1A1".data.getD 0 ' ' ≠ '_' :=
  C8_amended_same_sheet_guard_letter_or_underscore "1A1".data
    (findAll localCellAt "1A1".data)
    (fun g s e => mkCellRef none "S".data g s e "1A1".data)
    (fun _ _ _ => rfl) ⟨[], []⟩
    (mkCellRef none "S".data
      ⟨false, "A".data, false, "1".data, 1⟩ 1 3 "1A1".data)
    (by decide) (by decide) (by decide)

/-- **C9 (counterexample).** The claim states that formula cells never
dequeued by Kahn's algorithm are appended in an order lexicographic by
sheet, then row, then column — for both `topological_sort` and
`order_items`. For `order_items` this fails: with two mutually dependent
singles (the first conjuncts show each needs exactly the cell the other
produces, so neither is ever dequeued), the leftovers
`set(range(n)) - set(ordered)` are appended in ascending item-index
order; listing the `S!A2` single before the `S!A1` single returns
`[A2, A1]`, while the lexicographic (sheet, row, col) order demands `A1`
first (last conjuncts, stated with `cellKeyLe`). -/
theorem C9_counterexample_order_items_leftovers_not_lex :
    cells_needed [] (Item.single ("S".data, "A".data, 2, "=A1".data, ())) =
      .ok {("S".data, "A".data, 1)} ∧
    cells_needed [] (Item.single ("S".data, "A".data, 1, "=A2".data, ())) =
      .ok {("S".data, "A".data, 2)} ∧
    order_items ([] : List (Group Unit))
      [("S".data, "A".data, 2, "=A1".data, ()),
       ("S".data, "A".data, 1, "=A2".data, ())] [] =
      .ok [Item.single ("S".data, "A".data, 2, "=A1".data, ()),
           Item.single ("S".data, "A".data, 1, "=A2".data, ())] ∧
    cellKeyLe ("S", 1, 1) ("S", 2, 1) ∧ ¬ cellKeyLe ("S", 2, 1) ("S", 1, 1) := by
  refine ⟨by decide, by decide, by decide, ?_, ?_⟩
  · exact Or.inr ⟨rfl, Or.inl (by norm_num)⟩
  · intro h
    rcases h with h | ⟨_, h | ⟨h2, h3⟩⟩
    · exact absurd h (lt_irrefl _)
    · simp at h
    · simp at h2

/-! ### C3: pattern keys and row-drag equivalence -/

def decForall₂ {α β : Type} {R : α → β → Prop} [∀ a b, Decidable (R a b)] :
    (l₁ : List α) → (l₂ : List β) → Decidable (List.Forall₂ R l₁ l₂)
  | [], [] => isTrue .nil
  | [], _ :: _ => isFalse fun h => by cases h
  | _ :: _, [] => isFalse fun h => by cases h
  | a :: l₁, b :: l₂ =>
      have := decForall₂ (R := R) l₁ l₂
      decidable_of_iff (R a b ∧ List.Forall₂ R l₁ l₂) List.forall₂_cons.symm

instance {α β : Type} {R : α → β → Prop} [∀ a b, Decidable (R a b)]
    (l₁ : List α) (l₂ : List β) : Decidable (List.Forall₂ R l₁ l₂) :=
  decForall₂ l₁ l₂

/-- Reference `a` of a formula anchored at row `r1` and reference `b` of a
formula anchored at row `r2` are *row-drag copies* of each other: same
kind, external tag and sheet part; columns unchanged (equal letters where
absolute, equal column indices where relative); rows equal where absolute
and shifted by exactly the row distance `r2 - r1` where relative; and for
ranges the same on the end column/row (read through the same `getD`
accessors as `patTokOf`). -/
def DragMatch (cs : Chars) (r1 r2 : Nat) (a b : Reference) : Prop :=
  a.kind = b.kind ∧
  a.external_file = b.external_file ∧
  sheetPartOf cs a = sheetPartOf cs b ∧
  a.col_abs = b.col_abs ∧
  (a.col_abs = true → a.col = b.col) ∧
  (a.col_abs = false → a.col_idx = b.col_idx) ∧
  a.row_abs = b.row_abs ∧
  (a.row_abs = true → a.row = b.row) ∧
  (a.row_abs = false →
    (b.row : Int) = (a.row : Int) + ((r2 : Int) - (r1 : Int))) ∧
  (a.kind = RefKind.range →
    a.end_col_abs.getD false = b.end_col_abs.getD false ∧
    (a.end_col_abs.getD false = true → a.end_col.getD [] = b.end_col.getD []) ∧
    (a.end_col_abs.getD false = false →
      a.end_col_idx.getD 0 = b.end_col_idx.getD 0) ∧
    a.end_row_abs.getD false = b.end_row_abs.getD false ∧
    (a.end_row_abs.getD false = true → a.end_row.getD 0 = b.end_row.getD 0) ∧
    (a.end_row_abs.getD false = false →
      (b.end_row.getD 0 : Int) =
        (a.end_row.getD 0 : Int) + ((r2 : Int) - (r1 : Int))))

instance (cs : Chars) (r1 r2 : Nat) (a b : Reference) :
    Decidable (DragMatch cs r1 r2 a b) := by
  unfold DragMatch; infer_instance

lemma colDescOf_eq_iff (c : Nat) (fa fb : Bool) (ca cb : Chars) (ia ib : Nat) :
    colDescOf c fa ca ia = colDescOf c fb cb ib ↔
      (fa = fb ∧ (fa = true → ca = cb) ∧ (fa = false → ia = ib)) := by
  cases fa <;> cases fb <;> simp [colDescOf]

lemma rowDescOf_eq_iff (r1 r2 : Nat) (fa fb : Bool) (ra rb : Nat) :
    rowDescOf r1 fa ra = rowDescOf r2 fb rb ↔
      (fa = fb ∧ (fa = true → ra = rb) ∧
       (fa = false → (rb : Int) = (ra : Int) + ((r2 : Int) - (r1 : Int)))) := by
  cases fa <;> cases fb <;> simp [rowDescOf] <;> try omega

lemma patTokOf_eq_iff (cs : Chars) (c r1 r2 : Nat) (a b : Reference) :
    patTokOf cs c r1 a = patTokOf cs c r2 b ↔ DragMatch cs r1 r2 a b := by
  cases hka : a.kind <;> cases hkb : b.kind <;>
    simp [patTokOf, hka, hkb, DragMatch, colDescOf_eq_iff,
      rowDescOf_eq_iff] <;> tauto

/-- **C3.** Two formulas produce equal pattern keys under
`compute_pattern`, each evaluated at its own cell position `(c, r1)` /
`(c, r2)`, **iff** they have the same skeleton and their extracted
references are pointwise row-drag copies of each other (`DragMatch`):
absolute axes equal literally, relative columns unchanged, relative rows
shifted by exactly the constant row distance `r2 - r1`. The forward
implication is the claim's "structurally different formulas never collide";
the backward implication is "exact row-drag copies always produce equal
keys". -/
theorem C3_pattern_key_eq_iff_drag_copies
    (f1 f2 cs : Chars) (c r1 r2 : Nat) :
    (compute_pattern f1 cs c r1).1 = (compute_pattern f2 cs c r2).1 ↔
      ((compute_pattern f1 cs c r1).1.1 = (compute_pattern f2 cs c r2).1.1 ∧
       List.Forall₂ (DragMatch cs r1 r2)
         (extract_references f1 cs) (extract_references f2 cs)) := by
  have hmap : (extract_references f1 cs).map (patTokOf cs c r1) =
      (extract_references f2 cs).map (patTokOf cs c r2) ↔
      List.Forall₂ (DragMatch cs r1 r2)
        (extract_references f1 cs) (extract_references f2 cs) := by
    rw [← List.forall₂_eq_eq_eq, List.forall₂_map_left_iff,
      List.forall₂_map_right_iff]
    constructor
    · intro h
      exact h.imp (fun ha hb hab => (patTokOf_eq_iff cs c r1 r2 ha hb).mp hab)
    · intro h
      exact h.imp (fun ha hb hab => (patTokOf_eq_iff cs c r1 r2 ha hb).mpr hab)
  constructor
  · intro h
    refine ⟨congrArg Prod.fst h, hmap.mp ?_⟩
    have := congrArg Prod.snd h
    simpa [compute_pattern] using this
  · rintro ⟨hskel, hrefs⟩
    have htoks := hmap.mpr hrefs
    simp only [compute_pattern] at hskel ⊢
    exact Prod.ext hskel htoks

/-- **C3 (witness).** `=A1-B1` at `D2` and its one-row drag copy `=A2-B2`
at `D3` satisfy the drag correspondence, hence share a pattern key — and
the keys are indeed equal. -/
theorem C3_witness :
    (compute_pattern "=A1-B1".data "S".data 4 2).1 =
      (compute_pattern "=A2-B2".data "S".data 4 3).1 :=
  (C3_pattern_key_eq_iff_drag_copies "=A1-B1".data "=A2-B2".data
    "S".data 4 2 3).mpr ⟨by decide, by decide⟩

/-! ### C7: no reference starts inside a string literal -/

lemma refStep_in_string {α : Type} (f : Chars) (guarded : Bool)
    (mk : α → Nat → Nat → Reference) (hmk : ∀ a s e, (mk a s e).start = s)
    (st : ExtractState) (m : Nat × Nat × α)
    (hprev : ∀ r ∈ st.refs, in_string f r.start = false) :
    ∀ r ∈ (refStep f guarded mk st m).refs, in_string f r.start = false := by
  obtain ⟨start, stop, a⟩ := m
  intro r hr
  unfold refStep at hr
  dsimp only at hr
  by_cases h1 : in_string f start || spanOverlaps st.occupied start stop
  · rw [if_pos h1] at hr; exact hprev r hr
  · rw [if_neg h1] at hr
    by_cases h2 : (guarded && decide (start > 0) &&
        (isAlphaAscii (f.getD (start - 1) ' ') ||
         f.getD (start - 1) ' ' == '_')) = true
    · rw [if_pos h2] at hr; exact hprev r hr
    · rw [if_neg h2] at hr
      dsimp only at hr
      rcases List.mem_append.mp hr with hold | hnew
      · exact hprev r hold
      · have hre : r = mk a start stop := List.mem_singleton.mp hnew
        have hstart : r.start = start := by rw [hre]; exact hmk a start stop
        rw [hstart]
        simp only [Bool.or_eq_true, not_or] at h1
        cases hin : in_string f start
        · rfl
        · exact absurd hin h1.1

lemma refPass_in_string {α : Type} (f : Chars) (guarded : Bool)
    (mk : α → Nat → Nat → Reference) (hmk : ∀ a s e, (mk a s e).start = s)
    (ms : List (Nat × Nat × α)) (st : ExtractState)
    (hprev : ∀ r ∈ st.refs, in_string f r.start = false) :
    ∀ r ∈ (refPass f ms guarded mk st).refs, in_string f r.start = false := by
  induction ms generalizing st with
  | nil => exact hprev
  | cons m ms ih =>
      rw [refPass, List.foldl_cons]
      exact ih (refStep f guarded mk st m)
        (refStep_in_string f guarded mk hmk st m hprev)

/-- **C7.** For every formula string and current sheet, no `Reference`
returned by `extract_references` starts inside a double-quoted string
literal, in the sense of the source's `_in_string` scanner (which treats
an escaped `""` inside a string as a literal quote, not a terminator);
positions are relative to the formula with its leading `=` stripped, as
in the source. -/
theorem C7_references_not_inside_string_literals
    (formula current_sheet : Chars) (r : Reference)
    (hr : r ∈ extract_references formula current_sheet) :
    in_string (if formula.head? = some '=' then formula.drop 1 else formula)
      r.start = false := by
  simp only [extract_references] at hr
  have hmem := (List.perm_insertionSort refStartLe _).subset hr
  revert hmem
  refine refPass_in_string _ _ _ (fun _ _ _ => rfl) _ _ ?_ r
  refine refPass_in_string _ _ _ (fun _ _ _ => rfl) _ _ ?_
  refine refPass_in_string _ _ _ (fun _ _ _ => rfl) _ _ ?_
  refine refPass_in_string _ _ _ (fun _ _ _ => rfl) _ _ ?_
  refine refPass_in_string _ _ _ (fun _ _ _ => rfl) _ _ ?_
  refine refPass_in_string _ _ _ (fun _ _ _ => rfl) _ _ ?_
  intro r hr
  cases hr

/-- **C7 (witness).** In `=IF(B2>0,"A1",C3)` the text `A1` sits inside a
string literal and is indeed not extracted; the reference the extractor
does return (`B2`, at offset 3 of the stripped formula) starts outside
every string literal. -/
theorem C7_witness :
    in_string (if ("=IF(B2>0,\"A1\",C3)".data : Chars).head? = some '='
      then "=IF(B2>0,\"A1\",C3)".data.drop 1
      else "=IF(B2>0,\"A1\",C3)".data)
      ((extract_references "=IF(B2>0,\"A1\",C3)".data "S".data).headD
        (mkCellRef none [] ⟨false, [], false, [], 0⟩ 0 0 [])).start = false :=
  C7_references_not_inside_string_literals "=IF(B2>0,\"A1\",C3)".data
    "S".data _ (by decide)

/-! ### C10: spans of the extracted references -/

lemma cellPartAt_pos (l : Chars) (cp : CellTok) (n : Nat)
    (h : cellPartAt l = some (cp, n)) : 1 ≤ n := by
  unfold cellPartAt at h
  dsimp only at h
  split_ifs at h <;> cases h <;> omega

lemma localCellAt_pos (l : Chars) (cp : CellTok) (n : Nat)
    (h : localCellAt l = some (cp, n)) : 1 ≤ n :=
  cellPartAt_pos l cp n h

lemma localRangeAt_pos (l : Chars) (g : CellTok × CellTok) (n : Nat)
    (h : localRangeAt l = some (g, n)) : 1 ≤ n := by
  unfold localRangeAt at h
  rcases h1 : cellPartAt l with - | ⟨cp1, n1⟩ <;> rw [h1] at h <;>
    dsimp only at h
  · cases h
  · split_ifs at h
    rcases h2 : cellPartAt (l.drop (n1 + 1)) with - | ⟨cp2, n2⟩ <;>
      rw [h2] at h
    · cases h
    · injection h with h'
      have := congrArg Prod.snd h'
      dsimp at this
      omega

lemma extRangeAt_pos (l : Chars) (g : Chars × Chars × CellTok × CellTok)
    (n : Nat) (h : extRangeAt l = some (g, n)) : 1 ≤ n := by
  unfold extRangeAt at h
  rcases h0 : extQualAt l with - | ⟨⟨file, sheet⟩, n0⟩ <;> rw [h0] at h <;>
    dsimp only at h
  · cases h
  · rcases h1 : cellPartAt (l.drop n0) with - | ⟨cp1, n1⟩ <;> rw [h1] at h <;>
      dsimp only at h
    · cases h
    · split_ifs at h
      rcases h2 : cellPartAt (l.drop (n0 + n1 + 1)) with - | ⟨cp2, n2⟩ <;>
        rw [h2] at h <;> dsimp only at h
      · cases h
      · injection h with h'
        have := congrArg Prod.snd h'
        dsimp at this
        omega

lemma extCellAt_pos (l : Chars) (g : Chars × Chars × CellTok) (n : Nat)
    (h : extCellAt l = some (g, n)) : 1 ≤ n := by
  unfold extCellAt at h
  rcases h0 : extQualAt l with - | ⟨⟨file, sheet⟩, n0⟩ <;> rw [h0] at h <;>
    dsimp only at h
  · cases h
  · rcases h1 : cellPartAt (l.drop n0) with - | ⟨cp, n1⟩ <;> rw [h1] at h <;>
      dsimp only at h
    · cases h
    · injection h with h'
      have h2 := congrArg Prod.snd h'
      dsimp at h2
      have := cellPartAt_pos _ _ _ h1
      omega

lemma intRangeAt_pos (l : Chars) (g : Chars × CellTok × CellTok) (n : Nat)
    (h : intRangeAt l = some (g, n)) : 1 ≤ n := by
  unfold intRangeAt at h
  rcases h0 : intSheetAt l with - | ⟨sheet, n0⟩ <;> rw [h0] at h <;>
    dsimp only at h
  · cases h
  · rcases h1 : cellPartAt (l.drop n0) with - | ⟨cp1, n1⟩ <;> rw [h1] at h <;>
      dsimp only at h
    · cases h
    · split_ifs at h
      rcases h2 : cellPartAt (l.drop (n0 + n1 + 1)) with - | ⟨cp2, n2⟩ <;>
        rw [h2] at h <;> dsimp only at h
      · cases h
      · injection h with h'
        have := congrArg Prod.snd h'
        dsimp at this
        omega

lemma intCellAt_pos (l : Chars) (g : Chars × CellTok) (n : Nat)
    (h : intCellAt l = some (g, n)) : 1 ≤ n := by
  unfold intCellAt at h
  rcases h0 : intSheetAt l with - | ⟨sheet, n0⟩ <;> rw [h0] at h <;>
    dsimp only at h
  · cases h
  · rcases h1 : cellPartAt (l.drop n0) with - | ⟨cp, n1⟩ <;> rw [h1] at h <;>
      dsimp only at h
    · cases h
    · injection h with h'
      have h2 := congrArg Prod.snd h'
      dsimp at h2
      have := cellPartAt_pos _ _ _ h1
      omega

/-- `re.finditer` yields matches with nonempty, strictly advancing,
non-overlapping spans (given that the matcher consumes at least one
character). -/
lemma findAllF_spans {α : Type} (m : Chars → Option (α × Nat))
    (hm : ∀ l a n, m l = some (a, n) → 1 ≤ n) :
    ∀ (fuel : Nat) (l : Chars) (pos : Nat),
      (∀ e ∈ findAllF m fuel l pos, pos ≤ e.1 ∧ e.1 < e.2.1) ∧
      (findAllF m fuel l pos).Pairwise (fun e1 e2 => e1.2.1 ≤ e2.1) := by
  intro fuel
  induction fuel with
  | zero => intro l pos; simp [findAllF]
  | succ fuel ih =>
      intro l pos
      match l with
      | [] => simp [findAllF]
      | c :: cs =>
          rw [findAllF]
          rcases hmc : m (c :: cs) with - | ⟨a, n⟩
          · obtain ⟨ihb, ihp⟩ := ih cs (pos + 1)
            exact ⟨fun e he => by have := ihb e he; omega, ihp⟩
          · have hn := hm _ _ _ hmc
            obtain ⟨ihb, ihp⟩ := ih ((c :: cs).drop n) (pos + n)
            constructor
            · intro e he
              rcases List.mem_cons.mp he with he | he
              · subst he; dsimp; omega
              · have := ihb e he; omega
            · refine List.pairwise_cons.mpr ⟨?_, ihp⟩
              intro e he
              have := ihb e he
              dsimp
              omega

/-- Span disjointness of two references. -/
def SpanDisj (a b : Reference) : Prop :=
  a.stop ≤ b.start ∨ b.stop ≤ a.start

/-- The occupied-set invariant of the matching passes: every extracted
reference has a nonempty span, all its positions are claimed, and all
spans are pairwise disjoint. -/
def OccInv (st : ExtractState) : Prop :=
  (∀ r ∈ st.refs, r.start < r.stop) ∧
  (∀ r ∈ st.refs, ∀ p, r.start ≤ p → p < r.stop → p ∈ st.occupied) ∧
  st.refs.Pairwise SpanDisj

lemma refStep_occInv {α : Type} (f : Chars) (guarded : Bool)
    (mk : α → Nat → Nat → Reference)
    (hmk : ∀ a s e, (mk a s e).start = s ∧ (mk a s e).stop = e)
    (st : ExtractState) (m : Nat × Nat × α) (hspan : m.1 < m.2.1)
    (hinv : OccInv st) : OccInv (refStep f guarded mk st m) := by
  obtain ⟨start, stop, a⟩ := m
  dsimp at hspan
  unfold refStep
  dsimp only
  by_cases h1 : in_string f start || spanOverlaps st.occupied start stop
  · rw [if_pos h1]; exact hinv
  · rw [if_neg h1]
    by_cases h2 : (guarded && decide (start > 0) &&
        (isAlphaAscii (f.getD (start - 1) ' ') ||
         f.getD (start - 1) ' ' == '_')) = true
    · rw [if_pos h2]; exact hinv
    · rw [if_neg h2]
      obtain ⟨hb, hocc, hpw⟩ := hinv
      simp only [Bool.or_eq_true, not_or] at h1
      have hovf : spanOverlaps st.occupied start stop = false :=
        Bool.not_eq_true _ ▸ eq_false_of_ne_true h1.2
      rw [spanOverlaps] at hovf
      have hov : ∀ p, start ≤ p → p < stop → p ∉ st.occupied := by
        intro p hp1 hp2 hmem
        have hfalse := List.any_eq_false.mp hovf p
          (List.mem_range'_1.mpr ⟨hp1, by omega⟩)
        exact absurd hmem (by simpa using hfalse)
      obtain ⟨hs, he⟩ := hmk a start stop
      refine ⟨?_, ?_, ?_⟩
      · intro r hr
        rcases List.mem_append.mp hr with hr | hr
        · exact hb r hr
        · rw [List.mem_singleton.mp hr, hs, he]; exact hspan
      · intro r hr p hp1 hp2
        dsimp only
        rw [claimSpan, List.mem_append]
        rcases List.mem_append.mp hr with hr | hr
        · exact Or.inl (hocc r hr p hp1 hp2)
        · rw [List.mem_singleton.mp hr] at hp1 hp2
          rw [hs] at hp1
          rw [he] at hp2
          exact Or.inr (List.mem_range'_1.mpr ⟨hp1, by omega⟩)
      · rw [List.pairwise_append]
        refine ⟨hpw, List.pairwise_singleton _ _, ?_⟩
        intro r hr r' hr'
        rw [List.mem_singleton.mp hr']
        unfold SpanDisj
        rw [hs, he]
        by_contra hcon
        push_neg at hcon
        obtain ⟨hc1, hc2⟩ := hcon
        have hrb := hb r hr
        have hp := hocc r hr (max r.start start) (le_max_left _ _) (by omega)
        exact hov (max r.start start) (le_max_right _ _) (by omega) hp

lemma refPass_occInv {α : Type} (f : Chars) (guarded : Bool)
    (mk : α → Nat → Nat → Reference)
    (hmk : ∀ a s e, (mk a s e).start = s ∧ (mk a s e).stop = e)
    (ms : List (Nat × Nat × α)) (hms : ∀ m ∈ ms, m.1 < m.2.1)
    (st : ExtractState) (hinv : OccInv st) :
    OccInv (refPass f ms guarded mk st) := by
  induction ms generalizing st with
  | nil => exact hinv
  | cons m ms ih =>
      rw [refPass, List.foldl_cons]
      exact ih (fun m hm => hms m (List.mem_cons_of_mem _ hm))
        (refStep f guarded mk st m)
        (refStep_occInv f guarded mk hmk st m (hms m (List.mem_cons_self _ _))
          hinv)

lemma findAll_spans_lt {α : Type} (m : Chars → Option (α × Nat))
    (hm : ∀ l a n, m l = some (a, n) → 1 ≤ n) (l : Chars) :
    ∀ e ∈ findAll m l, e.1 < e.2.1 := fun e he =>
  ((findAllF_spans m hm (l.length + 1) l 0).1 e he).2

/-- **C10.** The references returned by `extract_references` occupy
pairwise-disjoint, nonempty character spans `[start, stop)` and come
sorted by strictly increasing start offset: for any two references in
returned order, the earlier one ends no later than the later one starts. -/
theorem C10_reference_spans_disjoint_sorted (formula current_sheet : Chars) :
    (extract_references formula current_sheet).Pairwise
      (fun a b => a.stop ≤ b.start) ∧
    ∀ r ∈ extract_references formula current_sheet, r.start < r.stop := by
  simp only [extract_references]
  set f := if formula.head? = some '=' then formula.drop 1 else formula with hf
  have hinv : OccInv ⟨[], []⟩ := ⟨by simp, by simp, List.Pairwise.nil⟩
  have h1 := refPass_occInv f false (mkExtRange f) (fun _ _ _ => ⟨rfl, rfl⟩)
    (findAll extRangeAt f) (findAll_spans_lt extRangeAt extRangeAt_pos f) _ hinv
  have h2 := refPass_occInv f false (mkExtCell f) (fun _ _ _ => ⟨rfl, rfl⟩)
    (findAll extCellAt f) (findAll_spans_lt extCellAt extCellAt_pos f) _ h1
  have h3 := refPass_occInv f false (mkIntRange f) (fun _ _ _ => ⟨rfl, rfl⟩)
    (findAll intRangeAt f) (findAll_spans_lt intRangeAt intRangeAt_pos f) _ h2
  have h4 := refPass_occInv f false (mkIntCell f) (fun _ _ _ => ⟨rfl, rfl⟩)
    (findAll intCellAt f) (findAll_spans_lt intCellAt intCellAt_pos f) _ h3
  have h5 := refPass_occInv f true (mkLocalRange f current_sheet)
    (fun _ _ _ => ⟨rfl, rfl⟩)
    (findAll localRangeAt f) (findAll_spans_lt localRangeAt localRangeAt_pos f) _ h4
  have h6 := refPass_occInv f true (mkLocalCell f current_sheet)
    (fun _ _ _ => ⟨rfl, rfl⟩)
    (findAll localCellAt f) (findAll_spans_lt localCellAt localCellAt_pos f) _ h5
  have h6' : OccInv (extractPasses f current_sheet) := h6
  obtain ⟨hb, -, hpw⟩ := h6'
  have hperm := List.perm_insertionSort refStartLe
    (extractPasses f current_sheet).refs
  have hb' : ∀ r ∈ (extractPasses f current_sheet).refs.insertionSort
      refStartLe, r.start < r.stop := fun r hr => hb r (hperm.subset hr)
  have hsorted := List.sorted_insertionSort refStartLe
    (extractPasses f current_sheet).refs
  have hpw' : ((extractPasses f current_sheet).refs.insertionSort
      refStartLe).Pairwise SpanDisj :=
    (List.Perm.pairwise_iff (fun h => h.symm) hperm).mpr hpw
  refine ⟨?_, hb'⟩
  have hand := hsorted.and hpw'
  refine hand.imp_of_mem ?_
  intro a b ha hb2 hab
  obtain ⟨hle, hdisj⟩ := hab
  rcases hdisj with h | h
  · exact h
  · have hbb := hb' b hb2
    unfold refStartLe at hle
    omega

/-- **C10 (witness).** Concrete instance of the span properties on
`=A1+SUM(B2:C3)`: the two references extracted have disjoint spans in
increasing order, and the first one's span is nonempty. -/
theorem C10_witness :
    (extract_references "=A1+SUM(B2:C3)".data "S".data).Pairwise
      (fun a b => a.stop ≤ b.start) ∧
    ((extract_references "=A1+SUM(B2:C3)".data "S".data).headD
        (mkCellRef none [] ⟨false, [], false, [], 0⟩ 0 1 [])).start <
      ((extract_references "=A1+SUM(B2:C3)".data "S".data).headD
        (mkCellRef none [] ⟨false, [], false, [], 0⟩ 0 1 [])).stop :=
  ⟨(C10_reference_spans_disjoint_sorted "=A1+SUM(B2:C3)".data "S".data).1,
   (C10_reference_spans_disjoint_sorted "=A1+SUM(B2:C3)".data "S".data).2 _
     (by decide)⟩

/-- A `while queue` loop starting (or arriving) at an empty queue stops
immediately. -/
lemma kahnLoop_empty_queue (cells : List CellKey)
    (adj : CellKey → Finset CellKey) (fuel : Nat) (st : KahnState)
    (h : st.queue = []) : kahnLoop cells adj fuel st = st := by
  cases fuel with
  | zero => rfl
  | succ fuel => rw [kahnLoop, h]

/-- The mutual two-cell adjacency: A reads B and B reads A. -/
def twoCycleAdj (A B : CellKey) : CellKey → Finset CellKey :=
  fun k => if k = A then {B} else if k = B then {A} else ∅

/-- **C9 (amended).** Formula cells never dequeued by Kahn's algorithm are
appended after all acyclically ordered ones in a deterministic order, but
the two schedulers use different orders: `topological_sort` appends its
leftovers sorted lexicographically by `(sheet, row, col)` (`cellKeyLe`),
while `order_items` appends its leftover item indices in ascending index
order (CPython's iteration order for a set of small ints). -/
theorem C9_amended_leftovers_deterministic_order :
    (∀ (cells : List CellKey) (adj : CellKey → Finset CellKey),
      ∃ rest, topological_sort cells adj =
          (kahnFinal cells adj).sorted_cells ++ rest ∧
        rest.Perm
          (cells.filter (fun c => c ∉ (kahnFinal cells adj).visited)) ∧
        rest.Sorted cellKeyLe) ∧
    (∀ (n : Nat) (depIdx : Nat → Finset Nat),
      ∃ ordered rest, orderIndicesFrom n depIdx = ordered ++ rest ∧
        rest = (List.range n).filter (fun i => i ∉ ordered) ∧
        rest.Sorted (· < ·)) := by
  constructor
  · intro cells adj
    exact ⟨_, rfl, List.perm_insertionSort _ _, List.sorted_insertionSort _ _⟩
  · intro n depIdx
    refine ⟨_, _, rfl, rfl, ?_⟩
    exact (List.pairwise_lt_range n).sublist (List.filter_sublist _)

/-- **C4.** A mutual two-cell cycle (A reads B and B reads A) does not
abort the schedulers: `topological_sort` still returns an order holding
both A and B exactly once while raising the cycle diagnostic, and
`order_items` on two mutually referencing formula cells returns `.ok`
with both items (no exception), each exactly once. -/
theorem C4_two_cell_cycle_does_not_raise (A B : CellKey) (hAB : A ≠ B) :
    (topological_sort [A, B] (twoCycleAdj A B)).Perm [A, B] ∧
    topological_sort_cycle_diag [A, B] (twoCycleAdj A B) = true ∧
    order_items ([] : List (Group Unit))
        [("S".data, "A".data, 1, "=B1".data, ()),
         ("S".data, "B".data, 1, "=A1".data, ())] ([] : Tables) =
      .ok [.single ("S".data, "A".data, 1, "=B1".data, ()),
           .single ("S".data, "B".data, 1, "=A1".data, ())] := by
  have hBA : B ≠ A := fun h => hAB h.symm
  have hdegA : initInDeg [A, B] (twoCycleAdj A B) A = 1 := by
    rw [initInDeg, if_pos (by simp), twoCycleAdj]
    rw [if_pos rfl, Finset.filter_singleton, if_pos (by simp)]
    simp
  have hdegB : initInDeg [A, B] (twoCycleAdj A B) B = 1 := by
    rw [initInDeg, if_pos (by simp), twoCycleAdj]
    rw [if_neg hBA, if_pos rfl, Finset.filter_singleton, if_pos (by simp)]
    simp
  have hq0 : (kahnStart [A, B] (twoCycleAdj A B)).queue = [] := by
    rw [kahnStart]
    simp [hdegA, hdegB]
  have hfin : kahnFinal [A, B] (twoCycleAdj A B) =
      kahnStart [A, B] (twoCycleAdj A B) :=
    kahnLoop_empty_queue _ _ _ _ hq0
  have hsort : topological_sort [A, B] (twoCycleAdj A B) =
      List.insertionSort cellKeyLe [A, B] := by
    rw [topological_sort, hfin]
    show [] ++ _ = _
    rw [List.nil_append]
    simp [kahnStart]
  have hperm := List.perm_insertionSort cellKeyLe [A, B]
  refine ⟨?_, ?_, by decide⟩
  · rw [hsort]
    exact hperm
  · rw [topological_sort_cycle_diag, hfin]
    simp [kahnStart]

/-- **C4 (witness).** The two-cell-cycle theorem at the concrete cells
`("S", 1, 1)` and `("S", 2, 1)`. -/
theorem C4_witness :
    (("S", 1, 1) : CellKey) ≠ ("S", 2, 1) ∧
    ((topological_sort [("S", 1, 1), ("S", 2, 1)]
          (twoCycleAdj ("S", 1, 1) ("S", 2, 1))).Perm
        [("S", 1, 1), ("S", 2, 1)] ∧
      topological_sort_cycle_diag [("S", 1, 1), ("S", 2, 1)]
          (twoCycleAdj ("S", 1, 1) ("S", 2, 1)) = true ∧
      order_items ([] : List (Group Unit))
          [("S".data, "A".data, 1, "=B1".data, ()),
           ("S".data, "B".data, 1, "=A1".data, ())] ([] : Tables) =
        .ok [.single ("S".data, "A".data, 1, "=B1".data, ()),
             .single ("S".data, "B".data, 1, "=A1".data, ())]) :=
  ⟨by decide,
   C4_two_cell_cycle_does_not_raise ("S", 1, 1) ("S", 2, 1) (by decide)⟩

/-! ### Partition lemmas for `group_formulas` -/

/-- `bucketAdd` preserves the bucketed elements: flattening after an
insertion is a permutation of the old flattening plus the new element. -/
lemma bucketAdd_flatMap_perm {κ β : Type} [DecidableEq κ] (key : κ) (v : β) :
    ∀ bs : List (κ × List β),
      ((bucketAdd key v bs).flatMap Prod.snd).Perm
        (bs.flatMap Prod.snd ++ [v])
  | [] => by simp [bucketAdd]
  | (k, vs) :: rest => by
      rw [bucketAdd]
      by_cases h : k = key
      · rw [if_pos h]
        simp only [List.flatMap_cons, List.append_assoc]
        exact List.Perm.append_left vs (List.perm_append_comm)
      · rw [if_neg h]
        simp only [List.flatMap_cons, List.append_assoc]
        exact List.Perm.append_left vs (bucketAdd_flatMap_perm key v rest)

/-- Folding `bucketAdd` over a list distributes it over the buckets:
the flattening is a permutation of the old flattening plus the list. -/
lemma bucketFold_perm {κ β : Type} [DecidableEq κ] (keyf : β → κ) :
    ∀ (l : List β) (bs : List (κ × List β)),
      ((l.foldl (fun bs cp => bucketAdd (keyf cp) cp bs) bs).flatMap
          Prod.snd).Perm (bs.flatMap Prod.snd ++ l)
  | [], bs => by simp
  | cp :: l, bs => by
      rw [List.foldl_cons]
      refine (bucketFold_perm keyf l _).trans ?_
      refine (List.Perm.append_right l (bucketAdd_flatMap_perm _ _ bs)).trans ?_
      simp

/-- `_find_contiguous_runs` only regroups: flattening the runs restores
the input list. -/
lemma splitRuns_flatten {β : Type} (adjF : β → β → Bool) :
    ∀ l : List β, (splitRuns adjF l).flatten = l
  | [] => rfl
  | [c] => rfl
  | c :: c2 :: rest => by
      have ih := splitRuns_flatten adjF (c2 :: rest)
      rcases h : splitRuns adjF (c2 :: rest) with - | ⟨r, rs⟩
      · rw [h] at ih
        simp at ih
      · rw [h] at ih
        rw [splitRuns, h]
        dsimp only
        by_cases hadj : adjF c c2
        · rw [if_pos hadj]
          simp only [List.flatten_cons] at ih ⊢
          rw [List.cons_append, ih]
        · rw [if_neg hadj]
          simp only [List.flatten_cons] at ih ⊢
          rw [ih]
          rfl

/-- Flattening a filtered list of lists is a sublist of the full
flattening. -/
lemma flatten_filter_sublist {β : Type} (p : List β → Bool) :
    ∀ l : List (List β), List.Sublist ((l.filter p).flatten) l.flatten
  | [] => List.Sublist.refl _
  | r :: l => by
      rw [List.filter_cons]
      by_cases h : p r
      · rw [if_pos h, List.flatten_cons, List.flatten_cons]
        exact (flatten_filter_sublist p l).append_left r
      · rw [if_neg h, List.flatten_cons]
        exact (flatten_filter_sublist p l).trans (List.sublist_append_right _ _)

/-- The run-collecting fold shared by `verticalStage` and
`horizontalStage`: it appends one group per run of length at least two and
claims exactly the addresses of those runs. -/
lemma runsFold_spec {α : Type} (dir : Direction) :
    ∀ (runs : List (List (CellPat α)))
      (acc : List (Group α) × List (Chars × Chars × Nat)),
      runs.foldl (fun acc run =>
          if 2 ≤ run.length then
            (acc.1 ++ [⟨run.map cpTuple, dir⟩], acc.2 ++ run.map addrOf)
          else acc) acc =
        (acc.1 ++ ((runs.filter (fun r => decide (2 ≤ r.length))).map
            (fun run => (⟨run.map cpTuple, dir⟩ : Group α))),
         acc.2 ++ ((runs.filter (fun r => decide (2 ≤ r.length))).flatten).map
            addrOf)
  | [], acc => by simp
  | run :: runs, acc => by
      rw [List.foldl_cons, List.filter_cons]
      by_cases h : 2 ≤ run.length
      · rw [if_pos h, if_pos (by simpa using h), runsFold_spec dir runs]
        simp
      · rw [if_neg h, if_neg (by simpa using h), runsFold_spec dir runs]

/-- Groups made of runs flatten back to the runs' cells. -/
lemma groups_of_runs_flatMap {α : Type} (dir : Direction) :
    ∀ runs : List (List (CellPat α)),
      ((runs.map (fun run => (⟨run.map cpTuple, dir⟩ : Group α))).flatMap
          Group.cells) = runs.flatten.map cpTuple
  | [] => rfl
  | run :: runs => by
      simp [groups_of_runs_flatMap dir runs]

/-- Sub-permutations append componentwise. -/
lemma subperm_append {β : Type} {l1 l2 r1 r2 : List β}
    (h : List.Subperm l1 l2) (h2 : List.Subperm r1 r2) :
    List.Subperm (l1 ++ r1) (l2 ++ r2) := by
  obtain ⟨u, hu, hsu⟩ := h
  obtain ⟨v, hv, hsv⟩ := h2
  exact ⟨u ++ v, hu.append hv, hsu.append hsv⟩

/-- The per-bucket stage fold of `verticalStage`/`horizontalStage`: the
cells put into groups form a sub-permutation `sel` of the bucketed cells,
and the claimed addresses are exactly `sel`'s addresses. -/
lemma stageFold_sel {α κ : Type} (dir : Direction)
    (sortLe : CellPat α → CellPat α → Prop) [DecidableRel sortLe]
    (adjF : CellPat α → CellPat α → Bool) :
    ∀ (cbs : List (κ × List (CellPat α)))
      (acc : List (Group α) × List (Chars × Chars × Nat)),
      ∃ sel, List.Subperm sel (cbs.flatMap Prod.snd) ∧
        (cbs.foldl (fun acc kb =>
            (splitRuns adjF (kb.2.insertionSort sortLe)).foldl
              (fun acc run =>
                if 2 ≤ run.length then
                  (acc.1 ++ [⟨run.map cpTuple, dir⟩], acc.2 ++ run.map addrOf)
                else acc) acc) acc).1.flatMap Group.cells =
          acc.1.flatMap Group.cells ++ sel.map cpTuple ∧
        (cbs.foldl (fun acc kb =>
            (splitRuns adjF (kb.2.insertionSort sortLe)).foldl
              (fun acc run =>
                if 2 ≤ run.length then
                  (acc.1 ++ [⟨run.map cpTuple, dir⟩], acc.2 ++ run.map addrOf)
                else acc) acc) acc).2 = acc.2 ++ sel.map addrOf
  | [], acc => ⟨[], by simp, by simp, by simp⟩
  | kb :: cbs, acc => by
      rw [List.foldl_cons, runsFold_spec]
      set runs := splitRuns adjF (kb.2.insertionSort sortLe) with hruns
      set selKb := (runs.filter (fun r => decide (2 ≤ r.length))).flatten
        with hselKb
      obtain ⟨sel', hsub', h1', h2'⟩ := stageFold_sel dir sortLe adjF cbs
        (acc.1 ++ ((runs.filter (fun r => decide (2 ≤ r.length))).map
            (fun run => (⟨run.map cpTuple, dir⟩ : Group α))),
         acc.2 ++ (selKb.map addrOf))
      refine ⟨selKb ++ sel', ?_, ?_, ?_⟩
      · rw [List.flatMap_cons]
        refine subperm_append ?_ hsub'
        have hsl : List.Subperm selKb runs.flatten :=
          (flatten_filter_sublist _ runs).subperm
        have hpm : runs.flatten.Perm kb.2 := by
          rw [hruns, splitRuns_flatten]
          exact List.perm_insertionSort sortLe kb.2
        exact List.Subperm.trans hsl (List.Perm.subperm hpm)
      · rw [h1']
        dsimp only
        rw [List.flatMap_append, groups_of_runs_flatMap]
        simp only [hselKb, List.map_append, List.map_flatten,
          List.append_assoc]
      · rw [h2']
        simp [List.append_assoc]

/-- With duplicate-free addresses, filtering out the claimed addresses of
a sub-permutation `sel` splits the bucket into `sel` and the rest. -/
lemma filter_claimed_perm {α : Type} (b sel : List (CellPat α))
    (hb : (b.map addrOf).Nodup) (hsub : List.Subperm sel b) :
    b.Perm (sel ++ b.filter
      (fun cp => !((sel.map addrOf).contains (addrOf cp)))) := by
  have hbnd : b.Nodup := hb.of_map
  have hselnd : sel.Nodup := by
    obtain ⟨u, hu, hsu⟩ := hsub
    exact hu.nodup_iff.mp (hbnd.sublist hsu)
  have hinj := List.inj_on_of_nodup_map hb
  have hfp : (b.filter
      (fun cp => ((sel.map addrOf).contains (addrOf cp)))).Perm sel := by
    refine (List.perm_ext_iff_of_nodup (hbnd.filter _) hselnd).mpr ?_
    intro x
    rw [List.mem_filter]
    constructor
    · rintro ⟨hxb, hxc⟩
      have hmm : addrOf x ∈ sel.map addrOf := by simpa using hxc
      obtain ⟨y, hy, hxy⟩ := List.mem_map.mp hmm
      have hyx := hinj (hsub.subset hy) hxb hxy
      rwa [← hyx]
    · intro hx
      refine ⟨hsub.subset hx, ?_⟩
      simpa using List.mem_map_of_mem addrOf hx
  refine ((List.filter_append_perm
    (fun cp => (sel.map addrOf).contains (addrOf cp)) b).symm).trans ?_
  exact hfp.append_right _

/-- `verticalStage` groups a sub-permutation of its bucket and claims
exactly those cells' addresses. -/
lemma verticalStage_sel {α : Type} (b : List (CellPat α)) :
    ∃ sel, List.Subperm sel b ∧
      (verticalStage b).1.flatMap Group.cells = sel.map cpTuple ∧
      (verticalStage b).2 = sel.map addrOf := by
  obtain ⟨sel, hsub, h1, h2⟩ := stageFold_sel Direction.vertical
    (fun a b => a.row ≤ b.row) (fun a b => b.row - a.row == 1)
    (b.foldl (fun bs cp => bucketAdd cp.col cp bs) []) ([], [])
  refine ⟨sel, ?_, ?_, ?_⟩
  · refine hsub.trans (List.Perm.subperm ?_)
    simpa using bucketFold_perm (fun cp : CellPat α => cp.col) b []
  · simpa using h1
  · simpa using h2

/-- `horizontalStage` groups a sub-permutation of the remaining cells and
claims exactly those cells' addresses. -/
lemma horizontalStage_sel {α : Type} (b : List (CellPat α)) :
    ∃ sel, List.Subperm sel b ∧
      (horizontalStage b).1.flatMap Group.cells = sel.map cpTuple ∧
      (horizontalStage b).2 = sel.map addrOf := by
  obtain ⟨sel, hsub, h1, h2⟩ := stageFold_sel Direction.horizontal
    (fun a b => a.col_idx ≤ b.col_idx) (fun a b => b.col_idx - a.col_idx == 1)
    (b.foldl (fun bs cp => bucketAdd cp.row cp bs) []) ([], [])
  refine ⟨sel, ?_, ?_, ?_⟩
  · refine hsub.trans (List.Perm.subperm ?_)
    simpa using bucketFold_perm (fun cp : CellPat α => cp.row) b []
  · simpa using h1
  · simpa using h2

/-- One bucket of `group_formulas` contributes each of its cells exactly
once, either inside a group or as a single (addresses assumed
duplicate-free). -/
lemma processBucket_perm {α : Type} (acc : GroupAcc α) (b : List (CellPat α))
    (hb : (b.map addrOf).Nodup) :
    ((processBucket acc b).groups.flatMap Group.cells ++
        (processBucket acc b).singles).Perm
      ((acc.groups.flatMap Group.cells ++ acc.singles) ++ b.map cpTuple) := by
  rw [processBucket]
  by_cases hlen : b.length < 2
  · rw [if_pos hlen]
    simp [List.append_assoc]
  · rw [if_neg hlen]
    dsimp only
    set rem := b.filter
      (fun cp => !((verticalStage b).2.contains (addrOf cp))) with hrem
    obtain ⟨sel1, hsub1, hv1, hv2⟩ := verticalStage_sel b
    obtain ⟨sel2, hsub2, hh1, hh2⟩ := horizontalStage_sel rem
    have hremnd : (rem.map addrOf).Nodup :=
      hb.sublist ((List.filter_sublist b).map addrOf)
    have hperm1 : b.Perm (sel1 ++ rem) := by
      have h := filter_claimed_perm b sel1 hb hsub1
      rw [← hv2] at h
      exact h
    have hperm2 : rem.Perm (sel2 ++ rem.filter
        (fun cp => !((sel2.map addrOf).contains (addrOf cp)))) :=
      filter_claimed_perm rem sel2 hremnd hsub2
    have hleft : b.filter (fun cp =>
          !(((verticalStage b).2 ++ (horizontalStage rem).2).contains
            (addrOf cp))) =
        rem.filter (fun cp => !((sel2.map addrOf).contains (addrOf cp))) := by
      rw [hrem, List.filter_filter]
      refine List.filter_congr ?_
      intro x hx
      rw [hh2]
      simp [Bool.and_comm, decide_not, not_or]
    rw [List.flatMap_append, List.flatMap_append, hv1, hh1, hleft]
    have hbT : (b.map cpTuple).Perm (sel1.map cpTuple ++ (sel2.map cpTuple ++
        (rem.filter (fun cp =>
          !((sel2.map addrOf).contains (addrOf cp)))).map cpTuple)) := by
      have h := (hperm1.trans (List.Perm.append_left sel1 hperm2)).map cpTuple
      simpa [List.map_append] using h
    rw [← Multiset.coe_eq_coe]
    have hbT' := Multiset.coe_eq_coe.mpr hbT
    simp only [← Multiset.coe_add] at hbT' ⊢
    rw [hbT']
    simp only [add_assoc, add_comm, add_left_comm]

/-- A duplicate-free flattening has duplicate-free parts. -/
lemma flatMap_nodup_parts {β γ : Type} (f : β → List γ) :
    ∀ l : List β, (l.flatMap f).Nodup → ∀ x ∈ l, (f x).Nodup := by
  intro l
  induction l with
  | nil => intro _ x hx; cases hx
  | cons a l ih =>
      intro h x hx
      rw [List.flatMap_cons] at h
      rcases List.mem_cons.mp hx with rfl | hx
      · exact h.of_append_left
      · exact ih h.of_append_right x hx

/-- Folding `processBucket` over the buckets contributes every bucketed
cell exactly once (bucket addresses assumed duplicate-free). -/
lemma processBucketFold_perm {α κ : Type} :
    ∀ (bks : List (κ × List (CellPat α))) (acc : GroupAcc α),
      (∀ kb ∈ bks, ((kb.2.map addrOf).Nodup)) →
      ((bks.foldl (fun acc kb => processBucket acc kb.2) acc).groups.flatMap
          Group.cells ++
        (bks.foldl (fun acc kb => processBucket acc kb.2) acc).singles).Perm
        ((acc.groups.flatMap Group.cells ++ acc.singles) ++
          (bks.flatMap Prod.snd).map cpTuple)
  | [], acc, _ => by simp
  | kb :: bks, acc, h => by
      rw [List.foldl_cons]
      have h1 := processBucketFold_perm bks (processBucket acc kb.2)
        (fun x hx => h x (List.mem_cons_of_mem _ hx))
      refine h1.trans ?_
      have h2 := processBucket_perm acc kb.2 (h kb (List.mem_cons_self _ _))
      refine (h2.append_right ((bks.flatMap Prod.snd).map cpTuple)).trans ?_
      rw [List.flatMap_cons, List.map_append, List.append_assoc,
        List.append_assoc]

/-- The pattern-key bucketing fold of `group_formulas` keeps every cell
carrying a pattern key. -/
lemma patternBucketFold_perm {α : Type} :
    ∀ (l : List (CellPat α))
      (bs : List ((Chars × PatternKey) × List (CellPat α))),
      (∀ cp ∈ l, cp.pattern_key ≠ none) →
      ((l.foldl (fun bs cp => match cp.pattern_key with
          | some k => bucketAdd k cp bs
          | none => bs) bs).flatMap Prod.snd).Perm
        (bs.flatMap Prod.snd ++ l)
  | [], bs, _ => by simp
  | cp :: l, bs, h => by
      rw [List.foldl_cons]
      rcases hk : cp.pattern_key with - | k
      · exact absurd hk (h cp (List.mem_cons_self _ _))
      · dsimp only
        have h1 := patternBucketFold_perm l (bucketAdd k cp bs)
          (fun x hx => h x (List.mem_cons_of_mem _ hx))
        refine h1.trans ?_
        refine ((bucketAdd_flatMap_perm k cp bs).append_right l).trans ?_
        rw [List.append_assoc]
        exact List.Perm.refl _

/-- **C2.** On inputs whose `(sheet, col, row)` addresses are pairwise
distinct, `group_formulas` partitions the input exactly: the cells of the
returned groups together with the returned singles are a permutation of
the input list (each input cell appears exactly once overall). -/
theorem C2_group_formulas_partitions_input {α : Type} (fc : List (FCell α))
    (h : (fc.map (fun t => (t.1, t.2.1, t.2.2.1))).Nodup) :
    ((group_formulas fc).1.flatMap Group.cells ++
      (group_formulas fc).2).Perm fc := by
  rw [group_formulas]
  dsimp only
  have hsome : ∀ cp ∈ fc.map mkCellPat, cp.pattern_key ≠ none := by
    intro cp hcpm
    obtain ⟨t, ht, rfl⟩ := List.mem_map.mp hcpm
    simp [mkCellPat]
  have hnp : (fc.map mkCellPat).filter
      (fun cp => cp.pattern_key = none) = [] := by
    rw [List.filter_eq_nil_iff]
    intro cp hcpm
    simpa using hsome cp hcpm
  set buckets := (fc.map mkCellPat).foldl (fun bs cp =>
    match cp.pattern_key with
    | some k => bucketAdd k cp bs
    | none => bs) [] with hbk
  have hbperm : (buckets.flatMap Prod.snd).Perm (fc.map mkCellPat) := by
    have h1 := patternBucketFold_perm (fc.map mkCellPat) [] hsome
    rw [← hbk] at h1
    simpa using h1
  have haddr : ((buckets.flatMap Prod.snd).map addrOf).Nodup := by
    refine (hbperm.map addrOf).nodup_iff.mpr ?_
    rw [List.map_map]
    exact h
  have hparts : ∀ kb ∈ buckets, ((kb.2.map addrOf).Nodup) := by
    intro kb hkb
    have hn : (buckets.flatMap (fun kb => kb.2.map addrOf)).Nodup := by
      rw [← List.map_flatMap]
      exact haddr
    exact flatMap_nodup_parts _ buckets hn kb hkb
  have hfold := processBucketFold_perm buckets ⟨[], []⟩ hparts
  rw [hnp]
  simp only [List.map_nil, List.append_nil]
  refine hfold.trans ?_
  simp only [List.flatMap_nil, List.nil_append, List.append_nil]
  refine (hbperm.map cpTuple).trans ?_
  rw [List.map_map]
  have hid : (cpTuple ∘ mkCellPat : FCell α → FCell α) = fun t => t := rfl
  rw [hid, List.map_id']

/-- **C2 (witness).** The partition theorem at a concrete two-cell input
with distinct addresses. -/
theorem C2_witness :
    (([("S".data, "A".data, 1, "=B1".data, ()),
       ("S".data, "A".data, 2, "=B2".data, ())] : List (FCell Unit)).map
        (fun t => (t.1, t.2.1, t.2.2.1))).Nodup ∧
    ((group_formulas [("S".data, "A".data, 1, "=B1".data, ()),
          ("S".data, "A".data, 2, "=B2".data, ())]).1.flatMap Group.cells ++
      (group_formulas [("S".data, "A".data, 1, "=B1".data, ()),
          ("S".data, "A".data, 2, "=B2".data, ())]).2).Perm
      [("S".data, "A".data, 1, "=B1".data, ()),
       ("S".data, "A".data, 2, "=B2".data, ())] :=
  ⟨by decide, C2_group_formulas_partitions_input _ (by decide)⟩

/-! ### Kahn-scheduler correctness lemmas -/

/-- `u` appears strictly before `v` in the list `l`. -/
def Precedes {β : Type} (l : List β) (u v : β) : Prop :=
  ∃ i j : Nat, i < j ∧ l[i]? = some u ∧ l[j]? = some v

/-- Characterisation of the inner decrement loop of `topological_sort`:
on a duplicate-free cell list it decrements every dependent of `cell`
once and appends exactly the dependents whose decremented in-degree is
non-positive and which are unvisited. -/
lemma decPass_spec (cell : CellKey) (adj : CellKey → Finset CellKey)
    (visited : Finset CellKey) :
    ∀ (L : List CellKey) (deg : CellKey → Int) (q : List CellKey), L.Nodup →
      (∀ k, (decPass cell adj visited L deg q).1 k =
        if k ∈ L ∧ cell ∈ adj k then deg k - 1 else deg k) ∧
      (decPass cell adj visited L deg q).2 =
        q ++ L.filter (fun k => decide (cell ∈ adj k) &&
          decide (deg k - 1 ≤ 0) && decide (k ∉ visited))
  | [], deg, q, _ => by
      refine ⟨fun k => ?_, by simp [decPass]⟩
      rw [decPass, if_neg (by simp)]
  | dependent :: more, deg, q, hnd => by
      have hdm : dependent ∉ more := (List.nodup_cons.mp hnd).1
      have hndm : more.Nodup := (List.nodup_cons.mp hnd).2
      rw [decPass]
      dsimp only
      by_cases hmem : cell ∈ adj dependent
      · rw [if_pos hmem]
        have hcongr : ∀ k ∈ more,
            (if k = dependent then deg dependent - 1 else deg k) = deg k := by
          intro k hk
          exact if_neg (fun h : k = dependent => hdm (h ▸ hk))
        by_cases hd : deg dependent - 1 ≤ 0 ∧ dependent ∉ visited
        · rw [if_pos hd]
          obtain ⟨ih1, ih2⟩ := decPass_spec cell adj visited more
            (fun k => if k = dependent then deg dependent - 1 else deg k)
            (q ++ [dependent]) hndm
          refine ⟨fun k => ?_, ?_⟩
          · rw [ih1 k]
            by_cases hk : k = dependent
            · subst hk
              rw [if_neg (fun h => hdm h.1), if_pos rfl,
                if_pos ⟨List.mem_cons_self _ _, hmem⟩]
            · rw [if_neg hk]
              by_cases hkm : k ∈ more ∧ cell ∈ adj k
              · rw [if_pos hkm, if_pos ⟨List.mem_cons_of_mem _ hkm.1, hkm.2⟩]
              · rw [if_neg hkm, if_neg (fun h => hkm
                  ⟨(List.mem_cons.mp h.1).resolve_left hk, h.2⟩)]
          · rw [ih2, List.filter_cons_of_pos
              (by simp [hmem, hd.1, hd.2]),
              List.filter_congr (fun k hk => by rw [hcongr k hk])]
            simp
        · rw [if_neg hd]
          obtain ⟨ih1, ih2⟩ := decPass_spec cell adj visited more
            (fun k => if k = dependent then deg dependent - 1 else deg k)
            q hndm
          refine ⟨fun k => ?_, ?_⟩
          · rw [ih1 k]
            by_cases hk : k = dependent
            · subst hk
              rw [if_neg (fun h => hdm h.1), if_pos rfl,
                if_pos ⟨List.mem_cons_self _ _, hmem⟩]
            · rw [if_neg hk]
              by_cases hkm : k ∈ more ∧ cell ∈ adj k
              · rw [if_pos hkm, if_pos ⟨List.mem_cons_of_mem _ hkm.1, hkm.2⟩]
              · rw [if_neg hkm, if_neg (fun h => hkm
                  ⟨(List.mem_cons.mp h.1).resolve_left hk, h.2⟩)]
          · rw [ih2, List.filter_cons_of_neg
              (by simpa [hmem] using fun h1 h2 => hd ⟨h1, h2⟩),
              List.filter_congr (fun k hk => by rw [hcongr k hk])]
      · rw [if_neg hmem]
        obtain ⟨ih1, ih2⟩ := decPass_spec cell adj visited more deg q hndm
        refine ⟨fun k => ?_, ?_⟩
        · rw [ih1 k]
          by_cases hkm : k ∈ more ∧ cell ∈ adj k
          · rw [if_pos hkm, if_pos ⟨List.mem_cons_of_mem _ hkm.1, hkm.2⟩]
          · rw [if_neg hkm, if_neg (fun h => ?_)]
            rcases List.mem_cons.mp h.1 with rfl | hmm
            · exact hmem h.2
            · exact hkm ⟨hmm, h.2⟩
        · rw [ih2, List.filter_cons_of_neg (by simp [hmem])]

/-- The formula-cell dependencies of `k`: `adj k` restricted to formula
cells. -/
def depsC (cells : List CellKey) (adj : CellKey → Finset CellKey)
    (k : CellKey) : Finset CellKey :=
  (adj k).filter (· ∈ cells)

/-- The loop invariant of the Kahn phase of `topological_sort`. -/
structure KInv (cells : List CellKey) (adj : CellKey → Finset CellKey)
    (st : KahnState) : Prop where
  visIff : ∀ k, k ∈ st.visited ↔ k ∈ st.sorted_cells
  visSub : ∀ k ∈ st.visited, k ∈ cells
  qSub : ∀ k ∈ st.queue, k ∈ cells
  degEq : ∀ k ∈ cells, st.in_deg k =
    ((depsC cells adj k).card : Int) -
      (((depsC cells adj k).filter (· ∈ st.visited)).card : Int)
  qReady : ∀ k ∈ st.queue,
    (∀ d ∈ depsC cells adj k, d ∈ st.visited) ∨ k ∈ st.visited
  order : ∀ (i : Nat) (v : CellKey), st.sorted_cells[i]? = some v →
    ∀ u ∈ depsC cells adj v,
      u = v ∨ ∃ j : Nat, j < i ∧ st.sorted_cells[j]? = some u
  complete : ∀ v ∈ cells, v ∉ st.visited →
    (∀ d ∈ depsC cells adj v, d ∈ st.visited) → v ∈ st.queue

/-- The invariant holds at the start state. -/
lemma kahnStart_inv (cells : List CellKey) (adj : CellKey → Finset CellKey) :
    KInv cells adj (kahnStart cells adj) := by
  refine ⟨?_, ?_, ?_, ?_, ?_, ?_, ?_⟩
  · intro k
    simp [kahnStart]
  · intro k hk
    simp [kahnStart] at hk
  · intro k hk
    exact (List.mem_filter.mp hk).1
  · intro k hk
    have h0 : (depsC cells adj k).filter (· ∈ (kahnStart cells adj).visited)
        = ∅ := by
      refine Finset.filter_false_of_mem ?_
      intro d _
      simp [kahnStart]
    rw [h0]
    simp [kahnStart, initInDeg, if_pos hk, depsC]
  · intro k hk
    left
    intro d hd
    have hz := (List.mem_filter.mp hk).2
    have hz2 : initInDeg cells adj k = 0 := by simpa using hz
    rw [initInDeg, if_pos (List.mem_filter.mp hk).1] at hz2
    have : ((adj k).filter (· ∈ cells)).card = 0 := by exact_mod_cast hz2
    rw [Finset.card_eq_zero] at this
    rw [depsC, this] at hd
    cases hd
  · intro i v hv
    simp [kahnStart] at hv
  · intro v hv hnv hdeps
    have hD : depsC cells adj v = ∅ := by
      rw [Finset.eq_empty_iff_forall_not_mem]
      intro d hd
      have := hdeps d hd
      simp [kahnStart] at this
    refine List.mem_filter.mpr ⟨hv, ?_⟩
    have : initInDeg cells adj v = 0 := by
      rw [initInDeg, if_pos hv]
      rw [depsC] at hD
      rw [hD]
      simp
    simp [kahnStart, this]

/-- Visiting the queue head preserves the Kahn invariant. -/
lemma kahnVisit_inv (cells : List CellKey) (adj : CellKey → Finset CellKey)
    (hnd : cells.Nodup) (st : KahnState) (cell : CellKey)
    (rest : List CellKey) (hq : st.queue = cell :: rest)
    (hcv : cell ∉ st.visited) (hinv : KInv cells adj st) :
    KInv cells adj
      { in_deg := (decPass cell adj (insert cell st.visited) cells
          st.in_deg rest).1,
        queue := (decPass cell adj (insert cell st.visited) cells
          st.in_deg rest).2,
        sorted_cells := st.sorted_cells ++ [cell],
        visited := insert cell st.visited } := by
  obtain ⟨hspec1, hspec2⟩ := decPass_spec cell adj (insert cell st.visited)
    cells st.in_deg rest hnd
  have hcell : cell ∈ cells :=
    hinv.qSub cell (by rw [hq]; exact List.mem_cons_self _ _)
  have hfins : ∀ k, cell ∈ adj k →
      (depsC cells adj k).filter (· ∈ insert cell st.visited) =
        insert cell ((depsC cells adj k).filter (· ∈ st.visited)) := by
    intro k hadj
    ext d
    simp only [Finset.mem_filter, Finset.mem_insert]
    constructor
    · rintro ⟨hdD, rfl | hdV⟩
      · exact Or.inl rfl
      · exact Or.inr ⟨hdD, hdV⟩
    · rintro (rfl | ⟨hdD, hdV⟩)
      · exact ⟨Finset.mem_filter.mpr ⟨hadj, by simpa using hcell⟩, Or.inl rfl⟩
      · exact ⟨hdD, Or.inr hdV⟩
  have hfeq : ∀ k, cell ∉ adj k →
      (depsC cells adj k).filter (· ∈ insert cell st.visited) =
        (depsC cells adj k).filter (· ∈ st.visited) := by
    intro k hadj
    refine Finset.filter_congr ?_
    intro d hd
    have hdc : d ≠ cell := fun h => hadj (h ▸ (Finset.mem_filter.mp hd).1)
    simp [Finset.mem_insert, hdc]
  have hcNotF : ∀ k, cell ∉ (depsC cells adj k).filter (· ∈ st.visited) :=
    fun k h => hcv (Finset.mem_filter.mp h).2
  have hcard : ∀ k, cell ∈ adj k →
      ((depsC cells adj k).filter (· ∈ insert cell st.visited)).card =
        ((depsC cells adj k).filter (· ∈ st.visited)).card + 1 := by
    intro k hadj
    rw [hfins k hadj, Finset.card_insert_of_not_mem (hcNotF k)]
  refine ⟨?_, ?_, ?_, ?_, ?_, ?_, ?_⟩
  · intro k
    dsimp only
    rw [Finset.mem_insert, hinv.visIff k]
    simp only [List.mem_append, List.mem_singleton]
    tauto
  · intro k hk
    rcases Finset.mem_insert.mp hk with rfl | hk
    · exact hcell
    · exact hinv.visSub k hk
  · intro k hk
    dsimp only at hk
    rw [hspec2] at hk
    rcases List.mem_append.mp hk with hk | hk
    · exact hinv.qSub k (by rw [hq]; exact List.mem_cons_of_mem _ hk)
    · exact (List.mem_filter.mp hk).1
  · intro k hk
    dsimp only
    rw [hspec1 k]
    by_cases hadj : cell ∈ adj k
    · rw [if_pos ⟨hk, hadj⟩, hinv.degEq k hk, hcard k hadj]
      push_cast
      ring
    · rw [if_neg (fun h => hadj h.2), hinv.degEq k hk, hfeq k hadj]
  · intro k hk
    dsimp only at hk ⊢
    rw [hspec2] at hk
    rcases List.mem_append.mp hk with hk | hk
    · rcases hinv.qReady k (by rw [hq]; exact List.mem_cons_of_mem _ hk)
        with h | h
      · exact Or.inl (fun d hd => Finset.mem_insert_of_mem (h d hd))
      · exact Or.inr (Finset.mem_insert_of_mem h)
    · obtain ⟨hkc, hpred⟩ := List.mem_filter.mp hk
      simp only [Bool.and_eq_true, decide_eq_true_eq] at hpred
      obtain ⟨⟨hadj, hdeg⟩, hkv2⟩ := hpred
      left
      have hksub : (depsC cells adj k).filter (· ∈ insert cell st.visited)
          = depsC cells adj k := by
        refine Finset.eq_of_subset_of_card_le (Finset.filter_subset _ _) ?_
        rw [hcard k hadj]
        have hdegk := hinv.degEq k hkc
        rw [hdegk] at hdeg
        omega
      intro d hd
      have hd2 : d ∈ (depsC cells adj k).filter
          (· ∈ insert cell st.visited) := hksub.symm ▸ hd
      exact (Finset.mem_filter.mp hd2).2
  · intro i v hv
    dsimp only at hv ⊢
    rcases lt_trichotomy i st.sorted_cells.length with hi | hi | hi
    · rw [List.getElem?_append_left hi] at hv
      intro u hu
      rcases hinv.order i v hv u hu with h | ⟨j, hj, hju⟩
      · exact Or.inl h
      · exact Or.inr ⟨j, hj, by
          rw [List.getElem?_append_left (hj.trans hi)]
          exact hju⟩
    · subst hi
      rw [List.getElem?_concat_length] at hv
      have hvc : v = cell := by
        injection hv with h
        exact h.symm
      subst hvc
      intro u hu
      rcases hinv.qReady v (by rw [hq]; exact List.mem_cons_self _ _)
        with h | h
      · have huv := h u hu
        have humem : u ∈ st.sorted_cells := (hinv.visIff u).mp huv
        obtain ⟨j, hju⟩ := List.mem_iff_getElem?.mp humem
        have hjlt : j < st.sorted_cells.length :=
          (List.getElem?_eq_some_iff.mp hju).1
        exact Or.inr ⟨j, hjlt, by
          rw [List.getElem?_append_left hjlt]
          exact hju⟩
      · exact absurd h hcv
    · have hnone : (st.sorted_cells ++ [cell])[i]? = none := by
        refine List.getElem?_eq_none ?_
        rw [List.length_append, List.length_singleton]
        omega
      rw [hnone] at hv
      cases hv
  · intro v hvc hnv2 hdeps2
    dsimp only at hnv2 hdeps2 ⊢
    have hvnc : v ≠ cell := fun h => hnv2 (h ▸ Finset.mem_insert_self _ _)
    have hvnv : v ∉ st.visited := fun h => hnv2 (Finset.mem_insert_of_mem h)
    rw [hspec2]
    by_cases hall : ∀ d ∈ depsC cells adj v, d ∈ st.visited
    · have hmem := hinv.complete v hvc hvnv hall
      rw [hq] at hmem
      rcases List.mem_cons.mp hmem with h | h
      · exact absurd h hvnc
      · exact List.mem_append_left _ h
    · push_neg at hall
      obtain ⟨d, hd, hdv⟩ := hall
      have hdc : d = cell := by
        rcases Finset.mem_insert.mp (hdeps2 d hd) with h | h
        · exact h
        · exact absurd h hdv
      have hadjv : cell ∈ adj v := hdc ▸ (Finset.mem_filter.mp hd).1
      refine List.mem_append_right _ (List.mem_filter.mpr ⟨hvc, ?_⟩)
      have hvdeg := hinv.degEq v hvc
      have hksub : (depsC cells adj v).filter (· ∈ insert cell st.visited)
          = depsC cells adj v :=
        Finset.filter_eq_self.mpr (fun x hx => hdeps2 x hx)
      have hc2 := hcard v hadjv
      rw [hksub] at hc2
      simp only [Bool.and_eq_true, decide_eq_true_eq]
      refine ⟨⟨hadjv, ?_⟩, hnv2⟩
      rw [hvdeg]
      omega

/-- The Kahn loop preserves the invariant, and with fuel exceeding the
standard measure it drains the queue. -/
lemma kahnLoop_inv (cells : List CellKey) (adj : CellKey → Finset CellKey)
    (hnd : cells.Nodup) :
    ∀ (fuel : Nat) (st : KahnState), KInv cells adj st →
      KInv cells adj (kahnLoop cells adj fuel st) ∧
      (st.queue.length +
          (cells.length - st.visited.card) * cells.length < fuel →
        (kahnLoop cells adj fuel st).queue = []) := by
  intro fuel
  induction fuel with
  | zero =>
      intro st hinv
      exact ⟨hinv, fun h => absurd h (Nat.not_lt_zero _)⟩
  | succ fuel ih =>
      intro st hinv
      rcases hq : st.queue with - | ⟨cell, rest⟩
      · have hstep : kahnLoop cells adj (fuel + 1) st = st := by
          rw [kahnLoop, hq]
        rw [hstep]
        exact ⟨hinv, fun _ => hq⟩
      · by_cases hcv : cell ∈ st.visited
        · have hstep : kahnLoop cells adj (fuel + 1) st =
              kahnLoop cells adj fuel { st with queue := rest } := by
            rw [kahnLoop, hq]
            dsimp only
            rw [if_pos hcv]
          have hinv2 : KInv cells adj { st with queue := rest } :=
            { visIff := hinv.visIff, visSub := hinv.visSub,
              qSub := fun k hk => hinv.qSub k
                (by rw [hq]; exact List.mem_cons_of_mem _ hk),
              degEq := hinv.degEq,
              qReady := fun k hk => hinv.qReady k
                (by rw [hq]; exact List.mem_cons_of_mem _ hk),
              order := hinv.order,
              complete := fun v hv hnv hd => by
                have hm := hinv.complete v hv hnv hd
                rw [hq] at hm
                rcases List.mem_cons.mp hm with rfl | h
                · exact absurd hcv hnv
                · exact h }
          obtain ⟨hI, hF⟩ := ih { st with queue := rest } hinv2
          rw [hstep]
          refine ⟨hI, fun hlt => hF ?_⟩
          have hql : st.queue.length = rest.length + 1 := by rw [hq]; rfl
          have hlen : (cell :: rest).length = rest.length + 1 := rfl
          dsimp only at hlt ⊢
          omega
        · have hstep : kahnLoop cells adj (fuel + 1) st =
              kahnLoop cells adj fuel
                { in_deg := (decPass cell adj (insert cell st.visited) cells
                    st.in_deg rest).1,
                  queue := (decPass cell adj (insert cell st.visited) cells
                    st.in_deg rest).2,
                  sorted_cells := st.sorted_cells ++ [cell],
                  visited := insert cell st.visited } := by
            rw [kahnLoop, hq]
            dsimp only
            rw [if_neg hcv]
          have hinvV := kahnVisit_inv cells adj hnd st cell rest hq hcv hinv
          obtain ⟨hI, hF⟩ := ih _ hinvV
          rw [hstep]
          refine ⟨hI, fun hlt => hF ?_⟩
          obtain ⟨-, hspec2⟩ := decPass_spec cell adj (insert cell st.visited)
            cells st.in_deg rest hnd
          have hcell : cell ∈ cells :=
            hinv.qSub cell (by rw [hq]; exact List.mem_cons_self _ _)
          have hq2len : (decPass cell adj (insert cell st.visited) cells
              st.in_deg rest).2.length ≤ rest.length + cells.length := by
            rw [hspec2, List.length_append]
            have := List.length_filter_le (fun k =>
              decide (cell ∈ adj k) && decide (st.in_deg k - 1 ≤ 0) &&
                decide (k ∉ insert cell st.visited)) cells
            omega
          have hvcard : (insert cell st.visited).card =
              st.visited.card + 1 := Finset.card_insert_of_not_mem hcv
          have hvbound : st.visited.card + 1 ≤ cells.length := by
            have hsub : insert cell st.visited ⊆ cells.toFinset := by
              intro x hx
              rcases Finset.mem_insert.mp hx with rfl | hx
              · exact List.mem_toFinset.mpr hcell
              · exact List.mem_toFinset.mpr (hinv.visSub x hx)
            have hle := Finset.card_le_card hsub
            rw [hvcard] at hle
            rwa [List.toFinset_card_of_nodup hnd] at hle
          have hkey2 : cells.length - (st.visited.card + 1) =
              cells.length - st.visited.card - 1 := by omega
          have hkey : (cells.length - st.visited.card - 1) * cells.length =
              (cells.length - st.visited.card) * cells.length -
                cells.length := Nat.sub_one_mul _ _
          have hge : cells.length ≤
              (cells.length - st.visited.card) * cells.length := by
            refine Nat.le_mul_of_pos_left _ ?_
            omega
          have hql : st.queue.length = rest.length + 1 := by rw [hq]; rfl
          have hlen : (cell :: rest).length = rest.length + 1 := rfl
          dsimp only at hlt ⊢
          rw [hvcard, hkey2, hkey]
          omega

/-- Acyclicity of the dependency graph restricted to the formula cells:
every nonempty subset holds a cell with no dependency inside the subset
(the finite characterisation of having no directed cycle). -/
def AcyclicDeps (cells : List CellKey) (adj : CellKey → Finset CellKey) :
    Prop :=
  ∀ S ∈ cells.toFinset.powerset, S.Nonempty → ∃ v ∈ S, ∀ u ∈ S, u ∉ adj v

instance (cells : List CellKey) (adj : CellKey → Finset CellKey) :
    Decidable (AcyclicDeps cells adj) := by
  unfold AcyclicDeps
  infer_instance

/-- On a duplicate-free, acyclic instance, `topological_sort` places every
formula-cell dependency before its dependent. -/
lemma topological_sort_precedes (cells : List CellKey)
    (adj : CellKey → Finset CellKey) (hnd : cells.Nodup)
    (hacy : AcyclicDeps cells adj) :
    ∀ u v, u ∈ cells → v ∈ cells → u ∈ adj v →
      Precedes (topological_sort cells adj) u v := by
  obtain ⟨hI, hF⟩ := kahnLoop_inv cells adj hnd (kahnFuel cells)
    (kahnStart cells adj) (kahnStart_inv cells adj)
  have hIfin : KInv cells adj (kahnFinal cells adj) := hI
  have hqnil : (kahnFinal cells adj).queue = [] := by
    refine hF ?_
    have hfl := List.length_filter_le
      (fun c => initInDeg cells adj c == 0) cells
    simp only [kahnStart, kahnFuel, Finset.card_empty, Nat.sub_zero]
    omega
  have hall : ∀ v ∈ cells, v ∈ (kahnFinal cells adj).visited := by
    by_contra hcon
    push_neg at hcon
    obtain ⟨v0, hv0c, hv0⟩ := hcon
    have hSp : cells.toFinset.filter (· ∉ (kahnFinal cells adj).visited) ∈
        cells.toFinset.powerset :=
      Finset.mem_powerset.mpr (Finset.filter_subset _ _)
    have hSne : (cells.toFinset.filter
        (· ∉ (kahnFinal cells adj).visited)).Nonempty :=
      ⟨v0, Finset.mem_filter.mpr ⟨List.mem_toFinset.mpr hv0c, hv0⟩⟩
    obtain ⟨v, hvS, hsrc⟩ := hacy _ hSp hSne
    obtain ⟨hvt, hvnv⟩ := Finset.mem_filter.mp hvS
    have hvc : v ∈ cells := List.mem_toFinset.mp hvt
    have hdeps : ∀ d ∈ depsC cells adj v,
        d ∈ (kahnFinal cells adj).visited := by
      intro d hd
      obtain ⟨hda, hdc⟩ := Finset.mem_filter.mp hd
      by_contra hdnv
      exact hsrc d (Finset.mem_filter.mpr
        ⟨List.mem_toFinset.mpr (by simpa using hdc), hdnv⟩) hda
    have hvq := hIfin.complete v hvc hvnv hdeps
    rw [hqnil] at hvq
    cases hvq
  have hrem : cells.filter
      (fun c => c ∉ (kahnFinal cells adj).visited) = [] := by
    rw [List.filter_eq_nil_iff]
    intro c hc
    simpa using hall c hc
  have htopo : topological_sort cells adj =
      (kahnFinal cells adj).sorted_cells := by
    rw [topological_sort]
    rw [hrem]
    simp
  intro u v hu hv hadj
  have huv : u ≠ v := by
    intro heq
    subst heq
    have h1 : ({u} : Finset CellKey) ∈ cells.toFinset.powerset :=
      Finset.mem_powerset.mpr (by simp [hu])
    obtain ⟨w, hwS, hsrc⟩ := hacy {u} h1 ⟨u, Finset.mem_singleton_self u⟩
    have hwv : w = u := Finset.mem_singleton.mp hwS
    exact hsrc u (Finset.mem_singleton_self u) (hwv ▸ hadj)
  have hvsor : v ∈ (kahnFinal cells adj).sorted_cells :=
    (hIfin.visIff v).mp (hall v hv)
  obtain ⟨i, hi⟩ := List.mem_iff_getElem?.mp hvsor
  have hud : u ∈ depsC cells adj v := Finset.mem_filter.mpr ⟨hadj, by simpa using hu⟩
  rcases hIfin.order i v hi u hud with h | ⟨j, hj, hju⟩
  · exact absurd h huv
  · rw [htopo]
    exact ⟨j, i, hj, hju, hi⟩

/-- The forward adjacency of the item-level Kahn loop: the items that
depend on `pi`. -/
def itemFwd (n : Nat) (depIdx : Nat → Finset Nat) : Nat → List Nat :=
  fun pi => (List.range n).filter (fun idx => pi ∈ depIdx idx)

/-- Acyclicity of the item dependency graph on indices `0..n-1`. -/
def ItemAcyclic (n : Nat) (depIdx : Nat → Finset Nat) : Prop :=
  ∀ S ∈ (Finset.range n).powerset, S.Nonempty → ∃ v ∈ S, ∀ u ∈ S, u ∉ depIdx v

instance (n : Nat) (depIdx : Nat → Finset Nat) :
    Decidable (ItemAcyclic n depIdx) := by
  unfold ItemAcyclic
  infer_instance

/-- Characterisation of the neighbour fold of `itemKahnLoop` on a
duplicate-free neighbour list: decrement each neighbour once, append the
ones hitting exactly zero. -/
lemma itemFold_spec :
    ∀ (L : List Nat) (deg : Nat → Int) (q : List Nat), L.Nodup →
      (∀ k, (L.foldl (fun (p : (Nat → Int) × List Nat) nb =>
          let d := p.1 nb - 1
          (fun k => if k = nb then d else p.1 k,
           if d = 0 then p.2 ++ [nb] else p.2)) (deg, q)).1 k =
        if k ∈ L then deg k - 1 else deg k) ∧
      (L.foldl (fun (p : (Nat → Int) × List Nat) nb =>
          let d := p.1 nb - 1
          (fun k => if k = nb then d else p.1 k,
           if d = 0 then p.2 ++ [nb] else p.2)) (deg, q)).2 =
        q ++ L.filter (fun k => decide (deg k - 1 = 0))
  | [], deg, q, _ => ⟨fun k => by simp, by simp⟩
  | nb :: more, deg, q, hnd => by
      have hdm : nb ∉ more := (List.nodup_cons.mp hnd).1
      have hndm : more.Nodup := (List.nodup_cons.mp hnd).2
      rw [List.foldl_cons]
      dsimp only
      obtain ⟨ih1, ih2⟩ := itemFold_spec more
        (fun k => if k = nb then deg nb - 1 else deg k)
        (if deg nb - 1 = 0 then q ++ [nb] else q) hndm
      have hcongr : ∀ k ∈ more,
          (if k = nb then deg nb - 1 else deg k) = deg k := by
        intro k hk
        exact if_neg (fun h : k = nb => hdm (h ▸ hk))
      refine ⟨fun k => ?_, ?_⟩
      · rw [ih1 k]
        by_cases hk : k = nb
        · subst hk
          rw [if_neg hdm, if_pos rfl, if_pos (List.mem_cons_self _ _)]
        · rw [if_neg hk]
          by_cases hkm : k ∈ more
          · rw [if_pos hkm, if_pos (List.mem_cons_of_mem _ hkm)]
          · rw [if_neg hkm, if_neg (fun h =>
              hkm ((List.mem_cons.mp h).resolve_left hk))]
      · rw [ih2, List.filter_congr (fun k hk => by rw [hcongr k hk])]
        by_cases hz : deg nb - 1 = 0
        · rw [if_pos hz, List.filter_cons_of_pos (by simpa using hz)]
          simp
        · rw [if_neg hz, List.filter_cons_of_neg (by simpa using hz)]

/-- The loop invariant of the item-level Kahn loop of `order_items`. -/
structure ItemInv (n : Nat) (depIdx : Nat → Finset Nat) (deg : Nat → Int)
    (queue ordered : List Nat) : Prop where
  nodupAll : (ordered ++ queue).Nodup
  memAll : ∀ k ∈ ordered ++ queue, k < n
  degEq : ∀ k, k < n → deg k = ((depIdx k).card : Int) -
    (((depIdx k).filter (· ∈ ordered)).card : Int)
  qReady : ∀ k ∈ queue, ∀ d ∈ depIdx k, d ∈ ordered
  oReady : ∀ k ∈ ordered, ∀ d ∈ depIdx k, d ∈ ordered
  order : ∀ (i v : Nat), ordered[i]? = some v → ∀ u ∈ depIdx v,
    ∃ j : Nat, j < i ∧ ordered[j]? = some u
  complete : ∀ v, v < n → v ∉ ordered → (∀ d ∈ depIdx v, d ∈ ordered) →
    v ∈ queue

/-- Popping the queue head preserves the item-level invariant. -/
lemma itemStep_inv (n : Nat) (depIdx : Nat → Finset Nat)
    (deg deg2 : Nat → Int) (node : Nat) (rest ordered queue2 : List Nat)
    (hdeg2 : ∀ k, deg2 k =
      if k ∈ itemFwd n depIdx node then deg k - 1 else deg k)
    (hq2 : queue2 = rest ++ (itemFwd n depIdx node).filter
      (fun k => decide (deg k - 1 = 0)))
    (hinv : ItemInv n depIdx deg (node :: rest) ordered) :
    ItemInv n depIdx deg2 queue2 (ordered ++ [node]) := by
  have hfwd : ∀ k, k ∈ itemFwd n depIdx node ↔ (k < n ∧ node ∈ depIdx k) := by
    intro k
    simp [itemFwd, List.mem_filter, List.mem_range]
  have hnode_n : node < n := hinv.memAll node
    (List.mem_append_right _ (List.mem_cons_self _ _))
  obtain ⟨ho, hnr, hdisj⟩ := List.nodup_append.mp hinv.nodupAll
  have hnodeord : node ∉ ordered :=
    fun h => hdisj h (List.mem_cons_self _ _)
  have hnn : node ∉ rest := (List.nodup_cons.mp hnr).1
  have hrest : rest.Nodup := (List.nodup_cons.mp hnr).2
  have hnodedeps : ∀ d ∈ depIdx node, d ∈ ordered :=
    hinv.qReady node (List.mem_cons_self _ _)
  have hFins : ∀ k, node ∈ depIdx k →
      (depIdx k).filter (· ∈ ordered ++ [node]) =
        insert node ((depIdx k).filter (· ∈ ordered)) := by
    intro k hk
    ext d
    simp only [Finset.mem_filter, Finset.mem_insert, List.mem_append,
      List.mem_singleton]
    constructor
    · rintro ⟨hdD, hdV | rfl⟩
      · exact Or.inr ⟨hdD, hdV⟩
      · exact Or.inl rfl
    · rintro (rfl | ⟨hdD, hdV⟩)
      · exact ⟨hk, Or.inr rfl⟩
      · exact ⟨hdD, Or.inl hdV⟩
  have hFeq : ∀ k, node ∉ depIdx k →
      (depIdx k).filter (· ∈ ordered ++ [node]) =
        (depIdx k).filter (· ∈ ordered) := by
    intro k hk
    refine Finset.filter_congr ?_
    intro d hd
    have hdc : d ≠ node := fun h => hk (h ▸ hd)
    simp [List.mem_append, List.mem_singleton, hdc]
  have hnodeNotF : ∀ k, node ∉ (depIdx k).filter (· ∈ ordered) :=
    fun k h => hnodeord (Finset.mem_filter.mp h).2
  have hcard : ∀ k, node ∈ depIdx k →
      ((depIdx k).filter (· ∈ ordered ++ [node])).card =
        ((depIdx k).filter (· ∈ ordered)).card + 1 := by
    intro k hk
    rw [hFins k hk, Finset.card_insert_of_not_mem (hnodeNotF k)]
  have hpushed : ∀ k ∈ (itemFwd n depIdx node).filter
      (fun k => decide (deg k - 1 = 0)),
      k < n ∧ node ∈ depIdx k ∧ deg k = 1 := by
    intro k hk
    obtain ⟨hk1, hk2⟩ := List.mem_filter.mp hk
    obtain ⟨hkn, hknd⟩ := (hfwd k).mp hk1
    have : deg k - 1 = 0 := by simpa using hk2
    exact ⟨hkn, hknd, by omega⟩
  have hpush_not_ord : ∀ k ∈ (itemFwd n depIdx node).filter
      (fun k => decide (deg k - 1 = 0)), k ∉ ordered := by
    intro k hk hko
    exact hnodeord (hinv.oReady k hko node (hpushed k hk).2.1)
  have hpush_ne_node : ∀ k ∈ (itemFwd n depIdx node).filter
      (fun k => decide (deg k - 1 = 0)), k ≠ node := by
    intro k hk heq
    have hmm := (hpushed k hk).2.1
    rw [heq] at hmm
    exact hnodeord (hnodedeps node hmm)
  have hpush_not_rest : ∀ k ∈ (itemFwd n depIdx node).filter
      (fun k => decide (deg k - 1 = 0)), k ∉ rest := by
    intro k hk hkr
    exact hnodeord
      (hinv.qReady k (List.mem_cons_of_mem _ hkr) node (hpushed k hk).2.1)
  have hpushnd : ((itemFwd n depIdx node).filter
      (fun k => decide (deg k - 1 = 0))).Nodup :=
    ((List.nodup_range n).filter _).filter _
  have hready : ∀ k ∈ (itemFwd n depIdx node).filter
      (fun k => decide (deg k - 1 = 0)),
      ∀ d ∈ depIdx k, d ∈ ordered ++ [node] := by
    intro k hk
    obtain ⟨hkn, hknd, hdegk⟩ := hpushed k hk
    have hsub : (depIdx k).filter (· ∈ ordered ++ [node]) = depIdx k := by
      refine Finset.eq_of_subset_of_card_le (Finset.filter_subset _ _) ?_
      rw [hcard k hknd]
      have hde := hinv.degEq k hkn
      omega
    intro d hd
    have hd2 : d ∈ (depIdx k).filter (· ∈ ordered ++ [node]) :=
      hsub.symm ▸ hd
    exact (Finset.mem_filter.mp hd2).2
  refine ⟨?_, ?_, ?_, ?_, ?_, ?_, ?_⟩
  · rw [hq2, List.nodup_append]
    refine ⟨?_, ?_, ?_⟩
    · rw [List.nodup_append]
      refine ⟨ho, List.nodup_singleton _, ?_⟩
      intro a ha ha2
      rw [List.mem_singleton] at ha2
      exact hnodeord (ha2 ▸ ha)
    · rw [List.nodup_append]
      refine ⟨hrest, hpushnd, ?_⟩
      intro a ha ha2
      exact hpush_not_rest a ha2 ha
    · intro a ha ha2
      rcases List.mem_append.mp ha with ha | ha
      · rcases List.mem_append.mp ha2 with ha2 | ha2
        · exact hdisj ha (List.mem_cons_of_mem _ ha2)
        · exact hpush_not_ord a ha2 ha
      · rw [List.mem_singleton] at ha
        subst ha
        rcases List.mem_append.mp ha2 with ha2 | ha2
        · exact hnn ha2
        · exact hpush_ne_node a ha2 rfl
  · intro k hk
    rcases List.mem_append.mp hk with hk | hk
    · rcases List.mem_append.mp hk with hk | hk
      · exact hinv.memAll k (List.mem_append_left _ hk)
      · rw [List.mem_singleton] at hk
        exact hk ▸ hnode_n
    · rw [hq2] at hk
      rcases List.mem_append.mp hk with hk | hk
      · exact hinv.memAll k
          (List.mem_append_right _ (List.mem_cons_of_mem _ hk))
      · exact (hpushed k hk).1
  · intro k hkn
    rw [hdeg2 k]
    by_cases hadj : node ∈ depIdx k
    · rw [if_pos ((hfwd k).mpr ⟨hkn, hadj⟩), hinv.degEq k hkn,
        hcard k hadj]
      push_cast
      ring
    · rw [if_neg (fun h => hadj ((hfwd k).mp h).2), hinv.degEq k hkn,
        hFeq k hadj]
  · intro k hk
    rw [hq2] at hk
    rcases List.mem_append.mp hk with hk | hk
    · intro d hd
      exact List.mem_append_left _
        (hinv.qReady k (List.mem_cons_of_mem _ hk) d hd)
    · exact hready k hk
  · intro k hk
    rcases List.mem_append.mp hk with hk | hk
    · intro d hd
      exact List.mem_append_left _ (hinv.oReady k hk d hd)
    · rw [List.mem_singleton] at hk
      subst hk
      intro d hd
      exact List.mem_append_left _ (hnodedeps d hd)
  · intro i v hv
    rcases lt_trichotomy i ordered.length with hi | hi | hi
    · rw [List.getElem?_append_left hi] at hv
      intro u hu
      obtain ⟨j, hj, hju⟩ := hinv.order i v hv u hu
      exact ⟨j, hj, by
        rw [List.getElem?_append_left (hj.trans hi)]
        exact hju⟩
    · subst hi
      rw [List.getElem?_concat_length] at hv
      have hvc : v = node := by
        injection hv with h
        exact h.symm
      subst hvc
      intro u hu
      have humem : u ∈ ordered := hnodedeps u hu
      obtain ⟨j, hju⟩ := List.mem_iff_getElem?.mp humem
      have hjlt : j < ordered.length := (List.getElem?_eq_some_iff.mp hju).1
      exact ⟨j, hjlt, by
        rw [List.getElem?_append_left hjlt]
        exact hju⟩
    · have hnone : (ordered ++ [v])[i]? = none := by
        refine List.getElem?_eq_none ?_
        rw [List.length_append, List.length_singleton]
        omega
      intro u hu
      rw [List.getElem?_eq_none (by
        rw [List.length_append, List.length_singleton]
        omega)] at hv
      cases hv
  · intro v hvn hnv2 hdeps2
    have hvnc : v ≠ node := fun h =>
      hnv2 (h ▸ List.mem_append_right _ (List.mem_singleton_self _))
    have hvno : v ∉ ordered := fun h => hnv2 (List.mem_append_left _ h)
    rw [hq2]
    by_cases hall : ∀ d ∈ depIdx v, d ∈ ordered
    · have hmem := hinv.complete v hvn hvno hall
      rcases List.mem_cons.mp hmem with h | h
      · exact absurd h hvnc
      · exact List.mem_append_left _ h
    · push_neg at hall
      obtain ⟨d, hd, hdo⟩ := hall
      have hdc : d = node := by
        rcases List.mem_append.mp (hdeps2 d hd) with h | h
        · exact absurd h hdo
        · exact List.mem_singleton.mp h
      have hadjv : node ∈ depIdx v := hdc ▸ hd
      refine List.mem_append_right _ (List.mem_filter.mpr
        ⟨(hfwd v).mpr ⟨hvn, hadjv⟩, ?_⟩)
      have hksub : (depIdx v).filter (· ∈ ordered ++ [node]) = depIdx v :=
        Finset.filter_eq_self.mpr (fun x hx => hdeps2 x hx)
      have hc2 := hcard v hadjv
      rw [hksub] at hc2
      have hde := hinv.degEq v hvn
      simp only [decide_eq_true_eq]
      omega

/-- The item-level Kahn loop drains its queue within `n + 1` iterations
and preserves the invariant. -/
lemma itemKahnLoop_inv (n : Nat) (depIdx : Nat → Finset Nat) :
    ∀ (fuel : Nat) (deg : Nat → Int) (queue ordered : List Nat),
      ItemInv n depIdx deg queue ordered →
      n - ordered.length < fuel →
      ∃ deg2, ItemInv n depIdx deg2 []
        (itemKahnLoop (itemFwd n depIdx) fuel deg queue ordered) := by
  intro fuel
  induction fuel with
  | zero =>
      intro deg queue ordered hinv hf
      exact absurd hf (Nat.not_lt_zero _)
  | succ fuel ih =>
      intro deg queue ordered hinv hf
      rcases hq : queue with - | ⟨node, rest⟩
      · subst hq
        have hstep : itemKahnLoop (itemFwd n depIdx) (fuel + 1) deg []
            ordered = ordered := by
          rw [itemKahnLoop]
        rw [hstep]
        exact ⟨deg, hinv⟩
      · subst hq
        obtain ⟨hs1, hs2⟩ := itemFold_spec (itemFwd n depIdx node) deg rest
          ((List.nodup_range n).filter _)
        have hstep : itemKahnLoop (itemFwd n depIdx) (fuel + 1) deg
            (node :: rest) ordered =
          itemKahnLoop (itemFwd n depIdx) fuel
            ((itemFwd n depIdx node).foldl
              (fun (p : (Nat → Int) × List Nat) nb =>
                let d := p.1 nb - 1
                (fun k => if k = nb then d else p.1 k,
                 if d = 0 then p.2 ++ [nb] else p.2)) (deg, rest)).1
            ((itemFwd n depIdx node).foldl
              (fun (p : (Nat → Int) × List Nat) nb =>
                let d := p.1 nb - 1
                (fun k => if k = nb then d else p.1 k,
                 if d = 0 then p.2 ++ [nb] else p.2)) (deg, rest)).2
            (ordered ++ [node]) := by
          rw [itemKahnLoop]
        rw [hstep]
        have hinv2 := itemStep_inv n depIdx deg _ node rest ordered _
          hs1 hs2 hinv
        have hlen : (ordered ++ [node]).length ≤ n := by
          have hnd2 : (ordered ++ [node]).Nodup :=
            hinv2.nodupAll.of_append_left
          have hsub : (ordered ++ [node]).toFinset ⊆ Finset.range n := by
            intro x hx
            rw [List.mem_toFinset] at hx
            exact Finset.mem_range.mpr
              (hinv2.memAll x (List.mem_append_left _ hx))
          have hc := Finset.card_le_card hsub
          rw [List.toFinset_card_of_nodup hnd2, Finset.card_range] at hc
          exact hc
        refine ih _ _ _ hinv2 ?_
        rw [List.length_append, List.length_singleton]
        rw [List.length_append, List.length_singleton] at hlen
        omega

/-- On an acyclic item dependency graph whose dependencies stay in range,
the index order computed by `order_items` places every dependency before
its dependent. -/
lemma orderIndicesFrom_precedes (n : Nat) (depIdx : Nat → Finset Nat)
    (hdep : ∀ k, k < n → depIdx k ⊆ Finset.range n)
    (hacy : ItemAcyclic n depIdx) :
    ∀ u v, v < n → u ∈ depIdx v →
      Precedes (orderIndicesFrom n depIdx) u v := by
  have hinv0 : ItemInv n depIdx
      (fun idx => ((depIdx idx).card : Int))
      ((List.range n).filter
        (fun i => ((depIdx i).card : Int) == 0)) [] := by
    refine ⟨?_, ?_, ?_, ?_, ?_, ?_, ?_⟩
    · simpa using (List.nodup_range n).filter _
    · intro k hk
      simp only [List.nil_append] at hk
      exact List.mem_range.mp (List.mem_filter.mp hk).1
    · intro k hk
      have h0 : (depIdx k).filter (· ∈ ([] : List Nat)) = ∅ :=
        Finset.filter_false_of_mem (fun d _ => by simp)
      rw [h0]
      simp
    · intro k hk d hd
      have hz := (List.mem_filter.mp hk).2
      have hz2 : ((depIdx k).card : Int) = 0 := by simpa using hz
      have : (depIdx k).card = 0 := by exact_mod_cast hz2
      rw [Finset.card_eq_zero] at this
      rw [this] at hd
      cases hd
    · intro k hk
      cases hk
    · intro i v hv
      simp at hv
    · intro v hvn hno hdeps
      have hD : depIdx v = ∅ := by
        rw [Finset.eq_empty_iff_forall_not_mem]
        intro d hd
        cases hdeps d hd
      refine List.mem_filter.mpr ⟨List.mem_range.mpr hvn, ?_⟩
      rw [hD]
      simp
  obtain ⟨deg2, hinvF⟩ := itemKahnLoop_inv n depIdx (n + 1)
    (fun idx => ((depIdx idx).card : Int))
    ((List.range n).filter (fun i => ((depIdx i).card : Int) == 0)) []
    hinv0 (by simp)
  set RES := itemKahnLoop (itemFwd n depIdx) (n + 1)
    (fun idx => ((depIdx idx).card : Int))
    ((List.range n).filter (fun i => ((depIdx i).card : Int) == 0)) []
    with hRES
  have hall : ∀ v, v < n → v ∈ RES := by
    intro v0 hv0
    by_contra hv0n
    have hSp : (Finset.range n).filter (· ∉ RES) ∈
        (Finset.range n).powerset :=
      Finset.mem_powerset.mpr (Finset.filter_subset _ _)
    have hSne : ((Finset.range n).filter (· ∉ RES)).Nonempty :=
      ⟨v0, Finset.mem_filter.mpr ⟨Finset.mem_range.mpr hv0, hv0n⟩⟩
    obtain ⟨v, hvS, hsrc⟩ := hacy _ hSp hSne
    obtain ⟨hvr, hvnres⟩ := Finset.mem_filter.mp hvS
    have hvn : v < n := Finset.mem_range.mp hvr
    have hdeps : ∀ d ∈ depIdx v, d ∈ RES := by
      intro d hd
      by_contra hdn
      exact hsrc d (Finset.mem_filter.mpr ⟨hdep v hvn hd, hdn⟩) hd
    have hq := hinvF.complete v hvn hvnres hdeps
    cases hq
  have hfil : (List.range n).filter (fun i => i ∉ RES) = [] := by
    rw [List.filter_eq_nil_iff]
    intro i hi
    simpa using hall i (List.mem_range.mp hi)
  have heq : orderIndicesFrom n depIdx = RES := by
    have h1 : orderIndicesFrom n depIdx =
        RES ++ (List.range n).filter (fun i => i ∉ RES) := rfl
    rw [h1, hfil, List.append_nil]
  intro u v hvn hu
  obtain ⟨i, hi⟩ := List.mem_iff_getElem?.mp (hall v hvn)
  obtain ⟨j, hj, hju⟩ := hinvF.order i v hi u hu
  rw [heq]
  exact ⟨j, i, hj, hju, hi⟩

/-- The producer dict only maps to indices of actual items. -/
lemma producerMap_lt {α : Type} (items : List (Item α)) :
    ∀ k i, producerMap items k = some i → i < items.length := by
  have hgen : ∀ (ps : List (Nat × Item α)) (pm : ItemKey → Option Nat),
      (∀ k i, pm k = some i → i < items.length) →
      (∀ p ∈ ps, p.1 < items.length) →
      ∀ k i, (ps.foldl (fun pm p => (cells_produced p.2).foldl
          (fun pm cell => fun k => if k = cell then some p.1 else pm k) pm)
          pm) k = some i →
        i < items.length := by
    intro ps
    induction ps with
    | nil =>
        intro pm hpm _ k i h
        exact hpm k i h
    | cons p ps ih =>
        intro pm hpm hps k i h
        rw [List.foldl_cons] at h
        refine ih _ ?_ (fun q hq => hps q (List.mem_cons_of_mem _ hq)) k i h
        have hp1 : p.1 < items.length := hps p (List.mem_cons_self _ _)
        have hinner : ∀ (cs : List ItemKey) (pm : ItemKey → Option Nat),
            (∀ k i, pm k = some i → i < items.length) →
            ∀ k i, (cs.foldl (fun pm cell => fun k =>
                if k = cell then some p.1 else pm k) pm) k = some i →
              i < items.length := by
          intro cs
          induction cs with
          | nil =>
              intro pm hpm k i h
              exact hpm k i h
          | cons c cs ih2 =>
              intro pm hpm k i h
              rw [List.foldl_cons] at h
              refine ih2 _ ?_ k i h
              intro k2 i2 h2
              by_cases hk2 : k2 = c
              · rw [if_pos hk2] at h2
                injection h2 with h3
                exact h3 ▸ hp1
              · rw [if_neg hk2] at h2
                exact hpm k2 i2 h2
        exact hinner _ pm hpm
  intro k i h
  refine hgen items.enum (fun _ => none) (fun k i h => by cases h) ?_ k i h
  intro p hp
  rw [List.enum_eq_zip_range] at hp
  exact List.mem_range.mp (List.of_mem_zip hp).1

/-- The dependency indices assembled by `order_items` stay in range. -/
lemma orderDepIdx_range {α : Type} (items : List (Item α))
    (deps : List (Finset ItemKey)) :
    ∀ idx, orderDepIdx items deps idx ⊆ Finset.range items.length := by
  intro idx
  simp only [orderDepIdx]
  rcases h1 : items.get? idx with - | it
  · intro x hx
    simp at hx
  · rcases h2 : deps.get? idx with - | nd
    · intro x hx
      simp at hx
    · intro x hx
      dsimp only at hx
      rw [depIndicesOf] at hx
      obtain ⟨cell, hcell, hx2⟩ := Finset.mem_biUnion.mp hx
      rcases hp : producerMap items cell with - | pi
      · rw [hp] at hx2
        dsimp only at hx2
        cases hx2
      · rw [hp] at hx2
        dsimp only at hx2
        by_cases hpi : pi ≠ idx
        · rw [if_pos hpi] at hx2
          rw [Finset.mem_singleton.mp hx2]
          exact Finset.mem_range.mpr (producerMap_lt items cell pi hp)
        · rw [if_neg hpi] at hx2
          cases hx2

/-- `order_items` applies the computed index order to the item list. -/
lemma order_items_eq {α : Type} (groups : List (Group α))
    (singles : List (FCell α)) (tables : Tables)
    (deps : List (Finset ItemKey)) (out : List (Item α))
    (hdeps : itemDeps tables
      (groups.map Item.group ++ singles.map Item.single) = .ok deps)
    (hout : order_items groups singles tables = .ok out) :
    out = (orderIndicesFrom
        (groups.map Item.group ++ singles.map Item.single).length
        (orderDepIdx (groups.map Item.group ++ singles.map Item.single)
          deps)).filterMap
        (groups.map Item.group ++ singles.map Item.single).get? := by
  rw [order_items] at hout
  by_cases he : (groups.map Item.group ++ singles.map Item.single).isEmpty
  · rw [if_pos he] at hout
    injection hout with h
    subst h
    have hnil : groups.map Item.group ++ singles.map Item.single =
        ([] : List (Item α)) := List.isEmpty_iff.mp he
    rw [hnil]
    rfl
  · rw [if_neg he, hdeps] at hout
    injection hout with h
    exact h.symm

/-- **C1.** With an acyclic dependency graph, each scheduler puts every
dependency before its dependent: `topological_sort` orders formula cell
`u` before `v` whenever `v` reads `u`, the index order of `order_items`
puts a producing item before every item needing one of its cells, and
`order_items` returns exactly the items permuted by that index order
(its dependency indices always staying in range). -/
theorem C1_acyclic_dependencies_precede :
    (∀ (cells : List CellKey) (adj : CellKey → Finset CellKey),
      cells.Nodup → AcyclicDeps cells adj →
      ∀ u v, u ∈ cells → v ∈ cells → u ∈ adj v →
        Precedes (topological_sort cells adj) u v) ∧
    (∀ (n : Nat) (depIdx : Nat → Finset Nat),
      (∀ k, k < n → depIdx k ⊆ Finset.range n) → ItemAcyclic n depIdx →
      ∀ u v, v < n → u ∈ depIdx v →
        Precedes (orderIndicesFrom n depIdx) u v) ∧
    (∀ (α : Type) (groups : List (Group α)) (singles : List (FCell α))
      (tables : Tables) (deps : List (Finset ItemKey)) (out : List (Item α)),
      itemDeps tables (groups.map Item.group ++ singles.map Item.single) =
        .ok deps →
      order_items groups singles tables = .ok out →
      out = (orderIndicesFrom
          (groups.map Item.group ++ singles.map Item.single).length
          (orderDepIdx (groups.map Item.group ++ singles.map Item.single)
            deps)).filterMap
          (groups.map Item.group ++ singles.map Item.single).get? ∧
      ∀ idx, orderDepIdx (groups.map Item.group ++ singles.map Item.single)
          deps idx ⊆
        Finset.range
          (groups.map Item.group ++ singles.map Item.single).length) :=
  ⟨fun cells adj hnd hacy => topological_sort_precedes cells adj hnd hacy,
   fun n depIdx hdep hacy => orderIndicesFrom_precedes n depIdx hdep hacy,
   fun α groups singles tables deps out hdeps hout =>
     ⟨order_items_eq groups singles tables deps out hdeps hout,
      orderDepIdx_range _ deps⟩⟩

/-- **C1 (witness).** The precedence theorem at a concrete acyclic
two-cell instance (`("S",2,1)` reads `("S",1,1)`) and a concrete acyclic
two-item index graph (item 1 depends on item 0). -/
theorem C1_witness :
    (([("S", 1, 1), ("S", 2, 1)] : List CellKey).Nodup ∧
      AcyclicDeps [("S", 1, 1), ("S", 2, 1)]
        (fun k => if k = ("S", 2, 1) then {("S", 1, 1)} else ∅) ∧
      (∀ k, k < 2 →
        (fun i => if i = 1 then ({0} : Finset Nat) else ∅) k ⊆
          Finset.range 2) ∧
      ItemAcyclic 2 (fun i => if i = 1 then ({0} : Finset Nat) else ∅)) ∧
    Precedes (topological_sort [("S", 1, 1), ("S", 2, 1)]
        (fun k => if k = ("S", 2, 1) then {("S", 1, 1)} else ∅))
      ("S", 1, 1) ("S", 2, 1) ∧
    Precedes (orderIndicesFrom 2
        (fun i => if i = 1 then ({0} : Finset Nat) else ∅)) 0 1 :=
  ⟨⟨by decide, by decide, by decide, by decide⟩,
   C1_acyclic_dependencies_precede.1 [("S", 1, 1), ("S", 2, 1)]
     (fun k => if k = ("S", 2, 1) then {("S", 1, 1)} else ∅)
     (by decide) (by decide) ("S", 1, 1) ("S", 2, 1)
     (by decide) (by decide) (by decide),
   C1_acyclic_dependencies_precede.2.1 2
     (fun i => if i = 1 then ({0} : Finset Nat) else ∅)
     (by decide) (by decide) 0 1 (by decide) (by decide)⟩

end ExcelToPython
